import Mathlib

/-!
Verification development for the HelloJudge3 judger worker.

This file gives a shallow embedding, in Lean 4, of the pure logic of the
judger's source code (comparators, resource watcher, sandbox output
collection, dependency graph, testdata synchronizer and the local judging
orchestrator), together with theorems settling a list of claims about the
program.

Modelling conventions:
* Byte vectors (`Vec<u8>`) are `List Nat` with entries below 256.
* Rust `i64` values are `Int`; overflow is irrelevant at the magnitudes the
  claims touch.  `x as i64` on an `f64` truncates toward zero and is
  modelled by `rustTrunc`; `f64` arithmetic is modelled by exact rational
  arithmetic (`ℚ`), which agrees with `f64` at every concrete input used
  in a theorem or witness below.
* Fallible operations return `Except String` / `Option`; external effects
  (container runtime, file system, HTTP) are passed in explicitly as data
  or oracle functions.
-/

/-- Byte vectors (`Vec<u8>`). -/
abbrev Bytes := List Nat

/-- Rust `as i64` applied to a (modelled) `f64`: truncation toward zero. -/
def rustTrunc (q : ℚ) : ℤ := if 0 ≤ q then ⌊q⌋ else ⌈q⌉

theorem rustTrunc_of_nonneg {q : ℚ} (h : 0 ≤ q) : rustTrunc q = ⌊q⌋ := if_pos h

/-- Rust `i64` division (`/`), which truncates toward zero. -/
def rustDiv (a b : ℤ) : ℤ := Int.tdiv a b

/-- Rust `x as u64` on an `i64`: reinterpret two's complement. -/
def i64AsU64 (x : ℤ) : ℕ := (x % (2 ^ 64 : ℤ)).toNat

/-- `CompareResult` from `src/core/compare/mod.rs`. -/
structure CompareResult where
  score : ℤ
  message : String
deriving Repr, DecidableEq

/-! ## Line comparator (`src/core/compare/simple.rs`) -/

/-- Rust `char::is_whitespace` (the Unicode `White_Space` property), as used
by `str::trim_end` in the line comparator. -/
def rustIsWhitespace (c : Char) : Bool :=
  let n := c.toNat
  (0x09 ≤ n && n ≤ 0x0D) || n == 0x20 || n == 0x85 || n == 0xA0 || n == 0x1680 ||
    (0x2000 ≤ n && n ≤ 0x200A) || n == 0x2028 || n == 0x2029 || n == 0x202F ||
    n == 0x205F || n == 0x3000

/-- `str::split("\n")` on the decoded text, as a list of lines. -/
def splitNl : List Char → List (List Char)
  | [] => [[]]
  | c :: rest =>
    if c = '\n' then [] :: splitNl rest
    else
      match splitNl rest with
      | s :: ss => (c :: s) :: ss
      | [] => [[c]]

/-- `str::trim_end`: drop trailing whitespace characters. -/
def trimEnd (l : List Char) : List Char := (l.reverse.dropWhile rustIsWhitespace).reverse

/-- The pop loops of `compare` in `simple.rs`: drop trailing lines whose
`trim_end` is empty. -/
def popBlank (segs : List (List Char)) : List (List Char) :=
  (segs.reverse.dropWhile (fun s => (trimEnd s).isEmpty)).reverse

/-- The mismatch scan of `compare` in `simple.rs`: first index (from `i`)
where the trailing-whitespace-trimmed lines differ. -/
def findMismatch : List (List Char) → List (List Char) → ℕ → Option ℕ
  | u :: us, b :: bs, i =>
    if trimEnd u ≠ trimEnd b then some i else findMismatch us bs (i + 1)
  | _, _, _ => none

/-- The body of `compare` in `simple.rs` after UTF-8 decoding. -/
def compareLines (user_out answer : List Char) (full_score : ℤ) : CompareResult :=
  let user_lines := popBlank (splitNl user_out)
  let answer_lines := popBlank (splitNl answer)
  if user_lines.length ≠ answer_lines.length then
    ⟨0, "Expected " ++ toString answer_lines.length ++ " lines, received " ++
      toString user_lines.length ++ " lines"⟩
  else
    match findMismatch user_lines answer_lines 0 with
    | some i => ⟨0, "Different at line " ++ toString (i + 1) ++ "."⟩
    | none => ⟨full_score, "OK!"⟩

/-- Continuation byte test for strict UTF-8 validation. -/
def utf8Cont (b : ℕ) : Bool := 0x80 ≤ b && b ≤ 0xBF

/-- Fuel-indexed strict UTF-8 decoder (`String::from_utf8`); each step
consumes at least one byte, so fuel `l.length` always suffices. -/
def utf8DecodeFuel : ℕ → List ℕ → Option (List Char)
  | _, [] => some []
  | 0, _ :: _ => none
  | fuel + 1, b :: rest =>
    if b ≤ 0x7F then (utf8DecodeFuel fuel rest).map (Char.ofNat b :: ·)
    else if b < 0xC2 then none
    else if b ≤ 0xDF then
      match rest with
      | b2 :: rest2 =>
        if utf8Cont b2 then
          (utf8DecodeFuel fuel rest2).map (Char.ofNat ((b - 0xC0) * 0x40 + (b2 - 0x80)) :: ·)
        else none
      | [] => none
    else if b ≤ 0xEF then
      match rest with
      | b2 :: b3 :: rest3 =>
        let okB2 :=
          if b == 0xE0 then 0xA0 ≤ b2 && b2 ≤ 0xBF
          else if b == 0xED then 0x80 ≤ b2 && b2 ≤ 0x9F
          else utf8Cont b2
        if okB2 && utf8Cont b3 then
          (utf8DecodeFuel fuel rest3).map
            (Char.ofNat ((b - 0xE0) * 0x1000 + (b2 - 0x80) * 0x40 + (b3 - 0x80)) :: ·)
        else none
      | _ => none
    else if b ≤ 0xF4 then
      match rest with
      | b2 :: b3 :: b4 :: rest4 =>
        let okB2 :=
          if b == 0xF0 then 0x90 ≤ b2 && b2 ≤ 0xBF
          else if b == 0xF4 then 0x80 ≤ b2 && b2 ≤ 0x8F
          else utf8Cont b2
        if okB2 && utf8Cont b3 && utf8Cont b4 then
          (utf8DecodeFuel fuel rest4).map
            (Char.ofNat ((b - 0xF0) * 0x40000 + (b2 - 0x80) * 0x1000 +
              (b3 - 0x80) * 0x40 + (b4 - 0x80)) :: ·)
        else none
      | _ => none
    else none

/-- `String::from_utf8` on a byte vector. -/
def utf8Decode (l : List ℕ) : Option (List Char) := utf8DecodeFuel l.length l

/-- `compare` from `src/core/compare/simple.rs`: decode both byte streams
(an invalid stream is an error), then compare line lists. -/
def simpleCompare (user_out answer : Bytes) (full_score : ℤ) : Except String CompareResult :=
  match utf8Decode user_out with
  | none => .error "Failed to decode chars: invalid utf-8 sequence"
  | some t1 =>
    match utf8Decode answer with
    | none => .error "Failed to decode chars: invalid utf-8 sequence"
    | some t2 => .ok (compareLines t1 t2 full_score)


/-! ### Lemmas about the line comparator -/

theorem isEmpty_true_iff {α : Type} (l : List α) : l.isEmpty = true ↔ l = [] := by
  cases l <;> simp

theorem reverse_isEmpty {α : Type} (l : List α) : l.reverse.isEmpty = l.isEmpty := by
  cases l with
  | nil => rfl
  | cons a t =>
    have h : (a :: t).reverse ≠ [] := by simp
    cases hr : (a :: t).reverse with
    | nil => exact absurd hr h
    | cons b u => rfl

theorem dropWhile_append_singleton {α : Type} (p : α → Bool) (l : List α) (a : α) :
    (l ++ [a]).dropWhile p =
      if (l.dropWhile p).isEmpty then [a].dropWhile p else l.dropWhile p ++ [a] := by
  induction l with
  | nil => simp
  | cons x l' ih =>
    by_cases hx : p x
    · simpa [List.dropWhile, hx] using ih
    · simp [List.dropWhile, hx]

theorem dropWhile_append_all {α : Type} (p : α → Bool) (l1 l2 : List α)
    (h : ∀ x ∈ l1, p x = true) : (l1 ++ l2).dropWhile p = l2.dropWhile p := by
  induction l1 with
  | nil => simp
  | cons x l' ih =>
    have hx : p x = true := h x (by simp)
    simp only [List.cons_append, List.dropWhile, hx]
    exact ih (fun y hy => h y (by simp [hy]))

theorem trimEnd_cons (c : Char) (s : List Char) :
    trimEnd (c :: s) =
      if (trimEnd s).isEmpty then (if rustIsWhitespace c then [] else [c])
      else c :: trimEnd s := by
  have hemp : (s.reverse.dropWhile rustIsWhitespace).isEmpty = (trimEnd s).isEmpty := by
    rw [trimEnd, reverse_isEmpty]
  rw [trimEnd, List.reverse_cons, dropWhile_append_singleton, hemp]
  by_cases h : (trimEnd s).isEmpty
  · simp only [h, if_true]
    by_cases hc : rustIsWhitespace c <;> simp [List.dropWhile, hc]
  · rw [if_neg h, if_neg h]
    simp [trimEnd]

theorem popBlank_cons (a : List Char) (X : List (List Char)) :
    popBlank (a :: X) =
      if (popBlank X).isEmpty then (if (trimEnd a).isEmpty then [] else [a])
      else a :: popBlank X := by
  have hemp : (X.reverse.dropWhile (fun s => (trimEnd s).isEmpty)).isEmpty
      = (popBlank X).isEmpty := by
    rw [popBlank, reverse_isEmpty]
  rw [popBlank, List.reverse_cons, dropWhile_append_singleton, hemp]
  by_cases h : (popBlank X).isEmpty
  · simp only [h, if_true]
    by_cases ha : (trimEnd a).isEmpty <;> simp [List.dropWhile, ha]
  · rw [if_neg h, if_neg h]
    simp [popBlank]

/-- The trailing-blank-popped, per-line-trimmed canonical form of a line list:
the comparator's verdict is a function of this form of both inputs. -/
def popTrim (segs : List (List Char)) : List (List Char) := (popBlank segs).map trimEnd

theorem map_isEmpty {α β : Type} (f : α → β) (l : List α) : (l.map f).isEmpty = l.isEmpty := by
  cases l <;> rfl

theorem popTrim_cons (a : List Char) (X : List (List Char)) :
    popTrim (a :: X) =
      if (popTrim X).isEmpty then (if (trimEnd a).isEmpty then [] else [trimEnd a])
      else trimEnd a :: popTrim X := by
  rw [popTrim, popBlank_cons]
  rw [show (popTrim X).isEmpty = (popBlank X).isEmpty from map_isEmpty _ _]
  by_cases h : (popBlank X).isEmpty
  · simp only [h, if_true]
    by_cases ha : (trimEnd a).isEmpty <;> simp [ha]
  · simp [h, popTrim]

theorem popTrim_cons_congr2 (a : List Char) {X Y : List (List Char)}
    (h : popTrim X = popTrim Y) : popTrim (a :: X) = popTrim (a :: Y) := by
  rw [popTrim_cons, popTrim_cons, h]

theorem popTrim_cons_congr (c : Char) {s1 s2 : List Char} {ss1 ss2 : List (List Char)}
    (h : popTrim (s1 :: ss1) = popTrim (s2 :: ss2)) :
    popTrim ((c :: s1) :: ss1) = popTrim ((c :: s2) :: ss2) := by
  rw [popTrim_cons, popTrim_cons] at h ⊢
  rw [trimEnd_cons, trimEnd_cons]
  by_cases h1 : (popTrim ss1).isEmpty <;> by_cases h2 : (popTrim ss2).isEmpty
  · simp only [h1, h2, if_true] at h ⊢
    by_cases b1 : (trimEnd s1).isEmpty <;> by_cases b2 : (trimEnd s2).isEmpty
    · simp [b1, b2]
    · simp [b1, b2] at h
    · simp [b1, b2] at h
    · simp only [b1, b2, if_false] at h ⊢
      have e1 : trimEnd s1 = trimEnd s2 := by
        have := List.cons.injEq (trimEnd s1) [] (trimEnd s2) [] ▸ h
        exact (List.cons.injEq _ _ _ _ ▸ h).1
      rw [e1]
  · simp only [h1, h2, if_true, if_false] at h ⊢
    by_cases b1 : (trimEnd s1).isEmpty
    · simp [b1] at h
    · simp only [b1, if_false] at h
      have e1 : trimEnd s1 = trimEnd s2 := (List.cons.injEq _ _ _ _ ▸ h).1
      have e2 : ([] : List (List Char)) = popTrim ss2 := (List.cons.injEq _ _ _ _ ▸ h).2
      rw [isEmpty_true_iff] at h2
      exact absurd e2.symm h2
  · simp only [h1, h2, if_true, if_false] at h ⊢
    by_cases b2 : (trimEnd s2).isEmpty
    · simp [b2] at h
    · simp only [b2, if_false] at h
      have e2 : popTrim ss1 = ([] : List (List Char)) := (List.cons.injEq _ _ _ _ ▸ h).2
      rw [isEmpty_true_iff] at h1
      exact absurd e2 h1
  · simp only [h1, h2, if_false] at h ⊢
    have e1 : trimEnd s1 = trimEnd s2 := (List.cons.injEq _ _ _ _ ▸ h).1
    have e2 : popTrim ss1 = popTrim ss2 := (List.cons.injEq _ _ _ _ ▸ h).2
    rw [e1, e2]

theorem splitNl_ne_nil (l : List Char) : splitNl l ≠ [] := by
  cases l with
  | nil => simp [splitNl]
  | cons c rest =>
    unfold splitNl
    by_cases h : c = '\n'
    · simp [h]
    · simp only [if_neg h]
      cases h2 : splitNl rest <;> simp

theorem popTrim_all_blank (segs : List (List Char))
    (h : ∀ s ∈ segs, (trimEnd s).isEmpty = true) : popTrim segs = [] := by
  have : segs.reverse.dropWhile (fun s => (trimEnd s).isEmpty) = [] := by
    rw [List.dropWhile_eq_nil_iff]
    exact fun x hx => h x (List.mem_reverse.mp hx)
  rw [popTrim, popBlank, this]
  rfl

/-- Appending text whose lines all trim to blank does not change the canonical
line form. -/
theorem popTrim_splitNl_append (u t : List Char)
    (ht : ∀ s ∈ splitNl t, (trimEnd s).isEmpty = true) :
    popTrim (splitNl (u ++ t)) = popTrim (splitNl u) := by
  induction u with
  | nil =>
    rw [List.nil_append]
    rw [popTrim_all_blank (splitNl t) ht]
    rfl
  | cons c u' ih =>
    by_cases hc : c = '\n'
    · subst hc
      show popTrim (splitNl ('\n' :: (u' ++ t))) = popTrim (splitNl ('\n' :: u'))
      unfold splitNl
      simp only [if_pos rfl]
      exact popTrim_cons_congr2 [] ih
    · show popTrim (splitNl (c :: (u' ++ t))) = popTrim (splitNl (c :: u'))
      unfold splitNl
      simp only [if_neg hc]
      cases h1 : splitNl (u' ++ t) with
      | nil => exact absurd h1 (splitNl_ne_nil _)
      | cons s1 ss1 =>
        cases h2 : splitNl u' with
        | nil => exact absurd h2 (splitNl_ne_nil _)
        | cons s2 ss2 =>
          rw [h1, h2] at ih
          exact popTrim_cons_congr c ih

theorem findMismatch_self (l : List (List Char)) (i : ℕ) : findMismatch l l i = none := by
  induction l generalizing i with
  | nil => rfl
  | cons x xs ih => simp [findMismatch, ih]

theorem findMismatch_congr_left {us vs : List (List Char)}
    (h : us.map trimEnd = vs.map trimEnd) (bs : List (List Char)) (i : ℕ) :
    findMismatch us bs i = findMismatch vs bs i := by
  induction us generalizing vs bs i with
  | nil =>
    cases vs with
    | nil => rfl
    | cons v vs' => simp at h
  | cons u us' ih =>
    cases vs with
    | nil => simp at h
    | cons v vs' =>
      simp only [List.map_cons, List.cons.injEq] at h
      cases bs with
      | nil => rfl
      | cons b bs' =>
        simp only [findMismatch, h.1]
        by_cases hm : trimEnd v ≠ trimEnd b
        · simp [hm]
        · simp only [hm, if_neg, ite_false]
          exact ih h.2 bs' (i + 1)

theorem findMismatch_congr_right {bs cs : List (List Char)}
    (h : bs.map trimEnd = cs.map trimEnd) (us : List (List Char)) (i : ℕ) :
    findMismatch us bs i = findMismatch us cs i := by
  induction bs generalizing cs us i with
  | nil =>
    cases cs with
    | nil => rfl
    | cons c cs' => simp at h
  | cons b bs' ih =>
    cases cs with
    | nil => simp at h
    | cons c cs' =>
      simp only [List.map_cons, List.cons.injEq] at h
      cases us with
      | nil => rfl
      | cons u us' =>
        simp only [findMismatch, h.1]
        by_cases hm : trimEnd u ≠ trimEnd c
        · simp [hm]
        · simp only [hm, if_neg, ite_false]
          exact ih h.2 us' (i + 1)

theorem compareLines_congr_left {u u2 : List Char} (b : List Char) (S : ℤ)
    (h : popTrim (splitNl u) = popTrim (splitNl u2)) :
    compareLines u b S = compareLines u2 b S := by
  have hlen : (popBlank (splitNl u)).length = (popBlank (splitNl u2)).length := by
    have := congrArg List.length h
    simpa [popTrim] using this
  have hmm := @findMismatch_congr_left (popBlank (splitNl u))
    (popBlank (splitNl u2)) h (popBlank (splitNl b)) 0
  unfold compareLines
  dsimp only
  rw [hlen, hmm]

theorem compareLines_congr_right (u : List Char) {b b2 : List Char} (S : ℤ)
    (h : popTrim (splitNl b) = popTrim (splitNl b2)) :
    compareLines u b S = compareLines u b2 S := by
  have hlen : (popBlank (splitNl b)).length = (popBlank (splitNl b2)).length := by
    have := congrArg List.length h
    simpa [popTrim] using this
  have hmm := @findMismatch_congr_right (popBlank (splitNl b))
    (popBlank (splitNl b2)) h (popBlank (splitNl u)) 0
  unfold compareLines
  dsimp only
  rw [hlen, hmm]

theorem compareLines_self (cs : List Char) (S : ℤ) : compareLines cs cs S = ⟨S, "OK!"⟩ := by
  unfold compareLines
  dsimp only
  rw [if_neg (by simp), findMismatch_self]

/-- C8 (amended): for every byte stream that decodes as UTF-8, the line
comparator gives `compare(a, a, _, S) = ok ⟨S, "OK!"⟩`; and appending text
whose lines all trim to blank (trailing blank lines) to either compared
stream leaves the comparison result unchanged.  (The original claim over
arbitrary byte streams fails: an invalid UTF-8 stream is rejected with an
error instead of a score.) -/
theorem simpleCompare_self_and_blank_lines :
    (∀ (a : Bytes) (cs : List Char) (S : ℤ), utf8Decode a = some cs →
      simpleCompare a a S = .ok ⟨S, "OK!"⟩) ∧
    (∀ (u b t : List Char) (S : ℤ), (∀ s ∈ splitNl t, (trimEnd s).isEmpty = true) →
      compareLines (u ++ t) b S = compareLines u b S ∧
      compareLines u (b ++ t) S = compareLines u b S) := by
  constructor
  · intro a cs S h
    unfold simpleCompare
    rw [h]
    exact congrArg Except.ok (compareLines_self cs S)
  · intro u b t S ht
    constructor
    · exact compareLines_congr_left b S (popTrim_splitNl_append u t ht)
    · exact compareLines_congr_right u S (popTrim_splitNl_append b t ht)

/-- C8 counterexample: at the byte stream `[0xFF]` (invalid UTF-8) the line
comparator returns an error, not a result with `score = S`; so
`compare(a, a, _, S).score == S` fails for this `a`. -/
theorem simpleCompare_invalid_utf8_is_error :
    simpleCompare [0xFF] [0xFF] 100 =
      .error "Failed to decode chars: invalid utf-8 sequence" := by rfl

/-- Witness for C8's amended theorem at concrete inputs. -/
theorem simpleCompare_self_and_blank_lines_witness :
    simpleCompare [49, 10] [49, 10] 100 = .ok ⟨100, "OK!"⟩ ∧
    (compareLines (['1'] ++ ['\n', ' ']) ['1'] 100 = compareLines ['1'] ['1'] 100 ∧
      compareLines ['1'] (['1'] ++ ['\n', ' ']) 100 = compareLines ['1'] ['1'] 100) :=
  ⟨simpleCompare_self_and_blank_lines.1 [49, 10] ['1', '\n'] 100 (by rfl),
    simpleCompare_self_and_blank_lines.2 ['1'] ['1'] ['\n', ' '] 100 (by decide)⟩

/-! ## Sandbox output collection (`src/core/runner/docker.rs`, log loop) -/

/-- Rust `str::is_char_boundary` at byte index `i` of the accumulated UTF-8
string: index 0 and the end are boundaries, otherwise the byte there must
not be a continuation byte. -/
def isCharBoundary (bs : List ℕ) (i : ℕ) : Bool :=
  i == 0 ||
    match bs[i]? with
    | some b => !(0x80 ≤ b && b ≤ 0xBF)
    | none => i == bs.length

/-- `String::from(&out[..max])`: `none` models the panic Rust raises when
`max` is not a character boundary of `out`. -/
def truncAt (out : List ℕ) (max : ℕ) : Option (List ℕ) :=
  if isCharBoundary out max then some (out.take max) else none

/-- The log-collection loop of `execute_in_docker` (lines 121-148): append
each delivered chunk to `out`; once `out.len() > max_output_length`,
truncate to `max_output_length` bytes, set the truncation flag and stop. -/
def collectOutputGo (max : ℕ) : List (List ℕ) → List ℕ → Option (List ℕ × Bool)
  | [], out => some (out, false)
  | chunk :: rest, out =>
    let out2 := out ++ chunk
    if out2.length > max then
      match truncAt out2 max with
      | some t => some (t, true)
      | none => none
    else collectOutputGo max rest out2

/-- Output collection over the whole chunk stream, starting from the empty
string, as in `execute_in_docker`. -/
def collectOutput (chunks : List (List ℕ)) (max : ℕ) : Option (List ℕ × Bool) :=
  collectOutputGo max chunks []


theorem collectOutputGo_spec (max : ℕ) (chunks : List (List ℕ)) :
    ∀ out : List ℕ, (∀ c ∈ chunks, ∀ b ∈ c, b < 0x80) → out.length ≤ max →
      ∃ res trunc, collectOutputGo max chunks out = some (res, trunc) ∧
        res.length ≤ max ∧
        (trunc = true ↔ max < out.length + chunks.flatten.length) := by
  induction chunks with
  | nil =>
    intro out _ hlen
    refine ⟨out, false, rfl, hlen, ?_⟩
    simp
    omega
  | cons chunk rest ih =>
    intro out hascii hlen
    have hchunk : ∀ b ∈ chunk, b < 0x80 := hascii chunk (by simp)
    by_cases hbig : (out ++ chunk).length > max
    · have hbound : isCharBoundary (out ++ chunk) max = true := by
        unfold isCharBoundary
        by_cases h0 : max = 0
        · simp [h0]
        · have hget : (out ++ chunk)[max]? = chunk[max - out.length]? :=
            List.getElem?_append_right hlen
          have hlt : max < (out ++ chunk).length := hbig
          have : max - out.length < chunk.length := by
            simp only [List.length_append] at hlt
            omega
          cases hc : chunk[max - out.length]? with
          | none =>
            rw [List.getElem?_eq_none_iff] at hc
            omega
          | some b =>
            have hb : b < 0x80 := hchunk b (List.getElem?_mem hc)
            have : (0x80 ≤ b && b ≤ 0xBF) = false := by
              simp only [Bool.and_eq_false_iff]
              left
              simpa using Nat.not_le.mpr hb
            rw [hget, hc]
            simp [this]
      refine ⟨(out ++ chunk).take max, true, ?_, ?_, ?_⟩
      · unfold collectOutputGo truncAt
        simp only [if_pos hbig, hbound, if_true]
      · simp
      · simp only [List.flatten_cons, List.length_append] at hbig ⊢
        constructor
        · intro _
          omega
        · intro _
          trivial
    · push_neg at hbig
      have hrec := ih (out ++ chunk) (fun c hc => hascii c (by simp [hc])) hbig
      obtain ⟨res, trunc, heq, hle, hiff⟩ := hrec
      refine ⟨res, trunc, ?_, hle, ?_⟩
      · unfold collectOutputGo
        simp only [if_neg (by omega : ¬(out ++ chunk).length > max)]
        exact heq
      · rw [hiff]
        simp [List.length_append]
        omega

/-- C10 (amended): over chunk streams of ASCII bytes the output-collection
loop is total; whenever it completes, the collected output is at most
`max_output_length` bytes long and the truncation flag is set exactly when
the full concatenated output exceeds `max_output_length`.  (Over arbitrary
UTF-8 chunks the loop is not total: the byte-index truncation can split a
multi-byte character, which panics.) -/
theorem collectOutput_ascii_total_bounded (chunks : List (List ℕ)) (max : ℕ)
    (hascii : ∀ c ∈ chunks, ∀ b ∈ c, b < 0x80) :
    ∃ res trunc, collectOutput chunks max = some (res, trunc) ∧
      res.length ≤ max ∧
      (trunc = true ↔ max < chunks.flatten.length) := by
  have h := collectOutputGo_spec max chunks [] hascii (by simp)
  simp only [collectOutput, List.length_nil, Nat.zero_add] at h
  exact h

/-- C10 counterexample: with a single two-byte chunk (the UTF-8 encoding of
`é`) and byte limit 1, the truncation index falls inside the character and
the collection step fails (panics) instead of being total. -/
theorem collectOutput_multibyte_panics : collectOutput [[0xC3, 0xA9]] 1 = none := by rfl

/-- Witness for C10's amended theorem at a concrete input. -/
theorem collectOutput_ascii_total_bounded_witness :
    ∃ res trunc, collectOutput [[65, 66, 67]] 2 = some (res, trunc) ∧
      res.length ≤ 2 ∧ (trunc = true ↔ 2 < ([[65, 66, 67]] : List (List ℕ)).flatten.length) :=
  collectOutput_ascii_total_bounded [[65, 66, 67]] 2 (by decide)

/-! ## Resource watcher (`src/core/runner/docker_watch.rs`) -/

/-- One iteration's view of the watcher's environment: the wall-clock offset
`gettimeofday - begin` observed in this round, whether `kill(pid, 0) == 0`
(process still alive), whether `fopen` of the cgroup usage file succeeded,
and the value `fscanf` read (if it read one). -/
structure WatchObs where
  elapsed : ℤ
  alive : Bool
  fopenOk : Bool
  scanned : Option ℤ
deriving Repr, DecidableEq

/-- Accumulator state of `watch_container`'s polling loop. -/
structure WatchState where
  total_memory : ℤ
  memory_cost_count : ℤ
  time_result : ℤ
deriving Repr, DecidableEq

/-- `WatchResult` from `docker_watch.rs`. -/
structure WatchResult where
  time_result : ℤ
  memory_result : ℤ
deriving Repr, DecidableEq

/-- The polling loop of `watch_container` (lines 77-99), driven by a trace of
per-iteration observations.  `some s` means the loop exited (process gone,
elapsed reached `time_limit * 1000`, or `fopen` failure) with accumulator
`s`; `none` means the loop was still running when the observed trace ended. -/
def watchLoop (time_limit : ℤ) : List WatchObs → WatchState → Option WatchState
  | [], _ => none
  | o :: rest, s =>
    if !o.alive then some s
    else
      let s1 : WatchState := { s with time_result := o.elapsed }
      if s1.time_result ≥ time_limit * 1000 then some s1
      else if o.fopenOk then
        let s2 : WatchState :=
          match o.scanned with
          | some v =>
            { s1 with total_memory := s1.total_memory + v,
                      memory_cost_count := s1.memory_cost_count + 1 }
          | none => s1
        watchLoop time_limit rest s2
      else some s1

/-- `watch_container` after the cgroup path has been located: run the polling
loop from the initial accumulator and post-process the result exactly as
lines 100-111 do.  `none` again means the loop has not yet terminated
within the observed trace. -/
def watchFinish (s : WatchState) : WatchResult :=
  { time_result := if s.time_result = -1 then 0 else s.time_result
    memory_result :=
      if s.memory_cost_count = 0 then 0 else rustDiv s.total_memory s.memory_cost_count }

def watch_container (time_limit : ℤ) (trace : List WatchObs) : Option WatchResult :=
  (watchLoop time_limit trace ⟨0, 0, -1⟩).map watchFinish

/-- C3: the watcher's give-up threshold for a still-living process is
`time_limit * 1000` microseconds, one thousand times the cap it receives
(`execute_in_docker` passes its microsecond `time_limit` — documented
`// in microsecond` and fed `scaled_time * 1000` by the caller — straight
through, and the loop compares the elapsed microseconds against
`time_limit * 1000`).  Concretely, with a cap of 1 000 000 µs the loop is
still polling a live process at elapsed 2 000 000 µs (and even at
999 999 999 µs), and only gives up once elapsed reaches 1 000 000 000 µs;
it also exits early when `fopen` of the cgroup file fails. -/
theorem watch_container_exceeds_cap :
    watch_container 1000000 [⟨2000000, true, true, some 0⟩] = none ∧
    watch_container 1000000 [⟨999999999, true, true, some 0⟩] = none ∧
    watch_container 1000000 [⟨1000000000, true, true, some 0⟩] =
      some ⟨1000000000, 0⟩ ∧
    watch_container 1000000 [⟨2000000, true, false, none⟩] = some ⟨2000000, 0⟩ := by
  refine ⟨by decide, by decide, by decide, by decide⟩

/-! ## Sandbox execute result (`src/core/runner/docker.rs`) -/

/-- `ExecuteResult` from `docker.rs`. -/
structure ExecuteResult where
  exit_code : ℤ
  time_cost : ℤ
  memory_cost : ℤ
  output : String
  output_truncated : Bool
deriving Repr, DecidableEq

/-! ## Special-judge comparator (`src/core/compare/special.rs`) -/

/-- The SPJ scratch directory: file name ↦ contents, most recent write
first.  The directory is created once in `try_new` and reused by every
`compare` call on the same comparator. -/
abbrev SpjDir := List (String × String)

/-- `tokio::fs::write`: create or overwrite a file. -/
def dirWrite (d : SpjDir) (name content : String) : SpjDir := (name, content) :: d

/-- Read a file if it exists (`exists` + `read_to_string`). -/
def dirLookup (d : SpjDir) (name : String) : Option String :=
  (d.find? (fun p => p.1 == name)).map (fun p => p.2)

/-- `str::trim`: drop leading and trailing whitespace. -/
def strTrim (s : String) : String :=
  ⟨((s.data.dropWhile rustIsWhitespace).reverse.dropWhile rustIsWhitespace).reverse⟩

/-- `str::parse::<i64>` on digits (no sign). -/
def parseDigits : List Char → Option ℤ
  | [] => none
  | l =>
    if l.all (fun c => c.isDigit) then
      some (l.foldl (fun acc c => acc * 10 + ((c.toNat : ℤ) - 48)) 0)
    else none

/-- `str::parse::<i64>`: optional sign followed by digits. -/
def parseI64 (s : String) : Option ℤ :=
  match s.data with
  | '+' :: rest => parseDigits rest
  | '-' :: rest => (parseDigits rest).map (fun v => -v)
  | l => parseDigits l

/-- The `"{} MB, {} ms"` usage summary of `my_compare`. -/
def spjUsageMessage (r : ExecuteResult) : String :=
  toString (rustDiv (rustDiv r.memory_cost 1024) 1024) ++ " MB, " ++
    toString (rustDiv r.time_cost 1000) ++ " ms"

/-- The decision tail of `my_compare` (lines 138-169), as a function of the
SPJ run result and the two files `my_compare` reads back from the scratch
directory: the contents of `message` (empty string when absent) and of
`score` (if present). -/
def spjDecision (r : ExecuteResult) (message : String) (scoreOpt : Option String)
    (full_score : ℤ) : Except String CompareResult :=
  if r.exit_code ≠ 0 then
    .ok ⟨0, "SPJ exited: " ++ toString r.exit_code ++ "(" ++ spjUsageMessage r ++ ")|" ++ message⟩
  else
    match scoreOpt with
    | none => .ok ⟨0, "SPJ exited with no score file"⟩
    | some score_str =>
      match parseI64 (strTrim score_str) with
      | none => .error "Failed to parse score"
      | some score =>
        if ¬(0 ≤ score ∧ score ≤ 100) then .error ("Invalid score: " ++ toString score)
        else .ok ⟨⌊(score : ℚ) / 100 * (full_score : ℚ)⌋, message⟩

/-- `my_compare` from `special.rs`: write `user_out`, `answer`, `input` into
the (shared, reused) scratch directory, apply the SPJ run's writes, then
read `message` and `score` back and decide.  The SPJ's behaviour is the
pair (run result, files written). -/
def my_compare (d0 : SpjDir) (user_out answer input_data : String)
    (run_result : ExecuteResult) (spjWrites : List (String × String)) (full_score : ℤ) :
    Except String CompareResult × SpjDir :=
  let d1 := dirWrite (dirWrite (dirWrite d0 "user_out" user_out) "answer" answer)
    "input" input_data
  let d2 := spjWrites.foldl (fun d nc => dirWrite d nc.1 nc.2) d1
  (spjDecision run_result ((dirLookup d2 "message").getD "") (dirLookup d2 "score") full_score,
    d2)

theorem dirLookup_dirWrite (d : SpjDir) (n c m : String) :
    dirLookup (dirWrite d n c) m = if n = m then some c else dirLookup d m := by
  unfold dirLookup dirWrite
  by_cases h : n = m
  · simp [List.find?, h]
  · simp only [List.find?]
    have hb : (n == m) = false := by simpa using h
    simp [hb, h]

theorem dirLookup_foldl_congr (w : List (String × String)) (m : String) :
    ∀ d d' : SpjDir, dirLookup d m = dirLookup d' m →
      dirLookup (w.foldl (fun d nc => dirWrite d nc.1 nc.2) d) m =
        dirLookup (w.foldl (fun d nc => dirWrite d nc.1 nc.2) d') m := by
  induction w with
  | nil => intro d d' h; exact h
  | cons p rest ih =>
    intro d d' h
    simp only [List.foldl_cons]
    apply ih
    rw [dirLookup_dirWrite, dirLookup_dirWrite, h]

theorem dirLookup_foldl_not_written (w : List (String × String)) (m : String)
    (hw : ∀ p ∈ w, p.1 ≠ m) :
    ∀ d : SpjDir, dirLookup (w.foldl (fun d nc => dirWrite d nc.1 nc.2) d) m = dirLookup d m := by
  induction w with
  | nil => intro d; rfl
  | cons p rest ih =>
    intro d
    simp only [List.foldl_cons]
    rw [ih (fun q hq => hw q (by simp [hq])), dirLookup_dirWrite,
      if_neg (hw p (by simp))]

/-- C9 (amended): the special-judge comparator is stateless only up to the
`score`/`message` files left in its reused scratch directory: two `compare`
invocations with the same inputs and the same SPJ behaviour agree whenever
neither starts with a residual `score` or `message` file; and the
no-score-file rule (`score = 0`, message `"SPJ exited with no score file"`)
holds exactly when no `score` file exists — neither written by this SPJ run
nor left over from an earlier call.  (Unconditional statelessness fails:
a stale `score` file from a previous call changes the result.) -/
theorem my_compare_stateless_modulo_residue :
    (∀ (d d' : SpjDir) (uo ans inp : String) (r : ExecuteResult)
        (w : List (String × String)) (S : ℤ),
      dirLookup d "score" = none → dirLookup d "message" = none →
      dirLookup d' "score" = none → dirLookup d' "message" = none →
      (my_compare d uo ans inp r w S).1 = (my_compare d' uo ans inp r w S).1) ∧
    (∀ (d : SpjDir) (uo ans inp : String) (r : ExecuteResult)
        (w : List (String × String)) (S : ℤ),
      r.exit_code = 0 → dirLookup d "score" = none → (∀ p ∈ w, p.1 ≠ "score") →
      (my_compare d uo ans inp r w S).1 = .ok ⟨0, "SPJ exited with no score file"⟩) := by
  constructor
  · intro d d' uo ans inp r w S hs hm hs' hm'
    unfold my_compare
    dsimp only
    have base : ∀ m : String, m = "score" ∨ m = "message" →
        dirLookup (dirWrite (dirWrite (dirWrite d "user_out" uo) "answer" ans) "input" inp) m =
          dirLookup (dirWrite (dirWrite (dirWrite d' "user_out" uo) "answer" ans) "input" inp)
            m := by
      intro m hm12
      rw [dirLookup_dirWrite, dirLookup_dirWrite, dirLookup_dirWrite,
        dirLookup_dirWrite, dirLookup_dirWrite, dirLookup_dirWrite]
      rcases hm12 with h | h <;> subst h <;> simp [hs, hm, hs', hm']
    rw [dirLookup_foldl_congr w "score" _ _ (base "score" (Or.inl rfl)),
      dirLookup_foldl_congr w "message" _ _ (base "message" (Or.inr rfl))]
  · intro d uo ans inp r w S hexit hs hw
    unfold my_compare
    dsimp only
    rw [dirLookup_foldl_not_written w "score" hw]
    rw [dirLookup_dirWrite, dirLookup_dirWrite, dirLookup_dirWrite]
    simp only [if_neg (by decide : ¬("input" : String) = "score"),
      if_neg (by decide : ¬("answer" : String) = "score"),
      if_neg (by decide : ¬("user_out" : String) = "score"), hs]
    unfold spjDecision
    simp [hexit]

/-- C9 counterexample: two `compare` invocations with identical arguments
and identical SPJ behaviour (exit 0, no files written) give different
results depending on a `score` file left by an earlier call — and with the
stale file present, an SPJ run that writes no score file does *not* produce
the no-score-file result. -/
theorem my_compare_stale_score_file :
    (my_compare [] "u" "a" "i" ⟨0, 0, 0, "", false⟩ [] 100).1 =
      .ok ⟨0, "SPJ exited with no score file"⟩ ∧
    (my_compare [("score", "100")] "u" "a" "i" ⟨0, 0, 0, "", false⟩ [] 100).1 =
      .ok ⟨100, ""⟩ := by
  constructor
  · rfl
  · show Except.ok (CompareResult.mk ⌊(100 : ℚ) / 100 * (100 : ℚ)⌋ "") = _
    norm_num

/-- Witness for C9's amended theorem at concrete inputs. -/
theorem my_compare_stateless_modulo_residue_witness :
    (my_compare [("input", "old")] "u" "a" "i" ⟨1, 0, 0, "", false⟩ [("message", "hi")] 50).1 =
      (my_compare [] "u" "a" "i" ⟨1, 0, 0, "", false⟩ [("message", "hi")] 50).1 ∧
    (my_compare [("message", "stale")] "u" "a" "i" ⟨0, 0, 0, "", false⟩ [] 77).1 =
      .ok ⟨0, "SPJ exited with no score file"⟩ :=
  ⟨my_compare_stateless_modulo_residue.1 [("input", "old")] [] "u" "a" "i"
      ⟨1, 0, 0, "", false⟩ [("message", "hi")] 50 (by decide) (by decide) (by decide)
      (by decide),
    my_compare_stateless_modulo_residue.2 [("message", "stale")] "u" "a" "i"
      ⟨0, 0, 0, "", false⟩ [] 77 (by decide) (by decide) (by decide)⟩

/-! ## Data model (`src/task/local/model.rs`) -/

/-- `ProblemTestcase`. -/
structure ProblemTestcase where
  full_score : ℤ
  input : String
  output : String
deriving Repr, DecidableEq

/-- `ProblemSubtask`. -/
structure ProblemSubtask where
  time_limit : ℤ
  memory_limit : ℤ
  method : String
  name : String
  score : ℤ
  testcases : List ProblemTestcase
deriving Repr, DecidableEq

/-- The fields of `ProblemInfo` the local judging pipeline reads. -/
structure ProblemInfo where
  id : ℤ
  input_file_name : String
  output_file_name : String
  spj_filename : String
  using_file_io : ℤ
  subtasks : List ProblemSubtask
deriving Repr, DecidableEq

/-- `ExtraJudgeConfig` (`time_scale` as an exact rational). -/
structure ExtraJudgeConfig where
  compile_time_limit : ℤ
  compile_result_length_limit : ℤ
  spj_execute_time_limit : ℤ
  extra_compile_parameter : String
  auto_sync_files : Bool
  output_file_size_limit : ℤ
  submit_answer : Bool
  answer_data : Option String
  time_scale : Option ℚ
deriving Repr, DecidableEq

/-- `SubmissionTestcaseResult`. -/
structure SubmissionTestcaseResult where
  full_score : ℤ
  input : String
  memory_cost : ℤ
  message : String
  output : String
  score : ℤ
  status : String
  time_cost : ℤ
deriving Repr, DecidableEq

/-! ## Traditional testcase handler (`src/task/local/traditional.rs`) -/

/-- The arguments `handle_traditional` passes to `execute_in_docker`
(image, memory bytes, time in microseconds, output cap). -/
structure ExecArgs where
  image : String
  memory_limit : ℤ
  time_limit : ℤ
  max_output_length : ℕ
deriving Repr, DecidableEq

/-- `let scaled_time = (subtask.time_limit as f64 * time_scale) as i64`
(line 54 of `traditional.rs`): truncation, in milliseconds. -/
def scaledTimeOf (subtask : ProblemSubtask) (time_scale : ℚ) : ℤ :=
  rustTrunc ((subtask.time_limit : ℚ) * time_scale)

/-- `extra_config.time_scale.unwrap_or(1.02)` (line 220 of `executor.rs`). -/
def timeScaleOf (o : Option ℚ) : ℚ := o.getD (51 / 50)

/-- The `execute_in_docker` call of `handle_traditional` (lines 64-71):
memory `subtask.memory_limit * 1024 * 1024` bytes, time
`scaled_time * 1000` microseconds, output cap 1000 bytes. -/
def traditionalExecArgs (image : String) (subtask : ProblemSubtask) (time_scale : ℚ) :
    ExecArgs :=
  ⟨image, subtask.memory_limit * 1024 * 1024, scaledTimeOf subtask time_scale * 1000, 1000⟩

/-- Observation of the user output file (`tokio::fs::File::open` +
`metadata` + `read_to_end` in lines 89-111): open may fail, metadata may
fail, otherwise a length and a read outcome are observed. -/
inductive OutFileObs where
  | openErr : OutFileObs
  | metaErr : OutFileObs
  | ok (len : ℕ) (readRes : Option Bytes) : OutFileObs

/-- The file-system and container environment of one traditional testcase
run: input-copy success, the sandbox (as an oracle from arguments to a
result), the user output file observation, and the problem-directory reads
of the testcase input and expected answer. -/
structure TcEnv where
  copyInputOk : Bool
  exec : ExecArgs → Except String ExecuteResult
  outFile : OutFileObs
  inputRead : Except String Bytes
  answerRead : Except String Bytes

/-- The final will-skip update of `handle_traditional` (lines 144-146). -/
def finishTraditional (subtask : ProblemSubtask) (tc : SubmissionTestcaseResult) :
    SubmissionTestcaseResult × Bool :=
  (tc, !(tc.status == "accepted") && (subtask.method == "min"))

/-- `handle_traditional` from `traditional.rs`, as a function of the
testcase environment.  Returns the updated testcase result and the new
`will_skip` flag (the flag is left unset on the output-size early return,
which bypasses the final check). -/
def handle_traditional (testcase : ProblemTestcase) (subtask : ProblemSubtask)
    (time_scale : ℚ) (image : String)
    (comparator : Bytes → Bytes → Bytes → ℤ → Except String CompareResult)
    (extra_config : ExtraJudgeConfig) (env : TcEnv) (tc0 : SubmissionTestcaseResult) :
    Except String (SubmissionTestcaseResult × Bool) :=
  if ¬env.copyInputOk then .error "Failed to copy input file" else
  let scaled_time := scaledTimeOf subtask time_scale
  match env.exec (traditionalExecArgs image subtask time_scale) with
  | .error e => .error ("Fatal error: " ++ e)
  | .ok run_result =>
    let tc1 : SubmissionTestcaseResult :=
      { tc0 with memory_cost := run_result.memory_cost,
                 time_cost := ⌈(run_result.time_cost : ℚ) / 1000⌉ }
    if rustDiv (rustDiv run_result.memory_cost 1024) 1024 ≥ subtask.memory_limit then
      .ok (finishTraditional subtask { tc1 with status := "memory_limit_exceed" })
    else if run_result.time_cost ≥ scaled_time * 1000 then
      .ok (finishTraditional subtask { tc1 with status := "time_limit_exceed" })
    else if run_result.exit_code ≠ 0 then
      .ok (finishTraditional subtask
        { tc1 with status := "runtime_error",
                   message := "退出代码: " ++ toString run_result.exit_code })
    else
      let afterRead : Bytes → Except String (SubmissionTestcaseResult × Bool) :=
        fun user_out =>
          match env.inputRead with
          | .error e => .error ("Failed to read input data: " ++ testcase.input ++ ", " ++ e)
          | .ok input_data =>
            match env.answerRead with
            | .error e => .error ("Failed to read answer data: " ++ testcase.output ++ ", " ++ e)
            | .ok answer_data =>
              let cr : CompareResult :=
                match comparator user_out answer_data input_data testcase.full_score with
                | .ok v => v
                | .error e => ⟨0, e⟩
              let tc2 : SubmissionTestcaseResult :=
                if cr.score < testcase.full_score then { tc1 with status := "wrong_answer" }
                else if cr.score = testcase.full_score then { tc1 with status := "accepted" }
                else { tc1 with status := "unaccepted",
                                message := "Illegal score: " ++ toString cr.score }
              .ok (finishTraditional subtask
                { tc2 with score := cr.score, message := cr.message })
      match env.outFile with
      | .openErr => afterRead []
      | .metaErr => afterRead []
      | .ok len readRes =>
        if len > i64AsU64 extra_config.output_file_size_limit then
          .ok ({ tc1 with status := "output_size_limit_exceed", message := "输出文件过大" },
            false)
        else afterRead (readRes.getD [])

/-! ## Submit-answer testcase handler (`src/task/local/submit_answer.rs`) -/

/-- `handle_submit_answer` from `submit_answer.rs`: no sandbox run; the
user's answer bytes are looked up by output-file name in the decoded
archive, compared by the comparator, and classified; comparator errors give
`judge_failed` with score 0. -/
def handle_submit_answer (tc0 : SubmissionTestcaseResult) (testcase : ProblemTestcase)
    (inputRead outputRead : Except String Bytes) (files : List (String × Bytes))
    (comparator : Bytes → Bytes → Bytes → ℤ → Except String CompareResult) :
    Except String SubmissionTestcaseResult :=
  let tc1 : SubmissionTestcaseResult := { tc0 with memory_cost := 0, time_cost := 0, message := "" }
  match inputRead with
  | .error e => .error ("Failed to read input file: " ++ e)
  | .ok input_data =>
    match outputRead with
    | .error e => .error ("Failed to read output file: " ++ e)
    | .ok output_data =>
      match (files.find? (fun p => p.1 == testcase.output)).map (fun p => p.2) with
      | some v =>
        match comparator v output_data input_data testcase.full_score with
        | .ok cr =>
          let tc2 : SubmissionTestcaseResult := { tc1 with score := cr.score }
          let tc3 : SubmissionTestcaseResult :=
            if cr.score < testcase.full_score then { tc2 with status := "wrong_answer" }
            else if cr.score = testcase.full_score then { tc2 with status := "accepted" }
            else { tc2 with score := 0, status := "judge_failed",
                            message := "Invalid score: " ++ toString cr.score }
          .ok { tc3 with message := tc3.message ++ cr.message }
        | .error e =>
          .ok { tc1 with status := "judge_failed", score := 0, message := tc1.message ++ e }
      | none =>
        .ok { tc1 with status := "wrong_answer", score := 0,
                       message := tc1.message ++ ("Missing file: " ++ testcase.output) }

/-- C4 (amended): for every traditional testcase run the sandbox is invoked
with `scaled_time * 1000` microseconds where
`scaled_time = trunc(subtask.time_limit * time_scale)` — truncation toward
zero (`as i64`), not `ceil` — with `time_scale` defaulting to 1.02 when
absent from the extra config; and (when the memory check does not fire
first) the time-limit-exceeded threshold is the same quantity. -/
theorem traditional_time_cap :
    (∀ (subtask : ProblemSubtask) (ts : ℚ) (image : String),
      (traditionalExecArgs image subtask ts).time_limit =
        rustTrunc ((subtask.time_limit : ℚ) * ts) * 1000) ∧
    timeScaleOf none = 51 / 50 ∧
    (∀ (testcase : ProblemTestcase) (subtask : ProblemSubtask) (ts : ℚ) (image : String)
        (comp : Bytes → Bytes → Bytes → ℤ → Except String CompareResult)
        (cfg : ExtraJudgeConfig) (env : TcEnv) (tc0 : SubmissionTestcaseResult)
        (run_result : ExecuteResult),
      env.copyInputOk = true →
      env.exec (traditionalExecArgs image subtask ts) = .ok run_result →
      rustDiv (rustDiv run_result.memory_cost 1024) 1024 < subtask.memory_limit →
      run_result.time_cost ≥ rustTrunc ((subtask.time_limit : ℚ) * ts) * 1000 →
      ∃ tc flag, handle_traditional testcase subtask ts image comp cfg env tc0 = .ok (tc, flag) ∧
        tc.status = "time_limit_exceed") := by
  refine ⟨fun _ _ _ => rfl, rfl, ?_⟩
  intro testcase subtask ts image comp cfg env tc0 run_result hcopy hexec hmem htime
  have htime2 : run_result.time_cost ≥ scaledTimeOf subtask ts * 1000 := htime
  unfold handle_traditional
  rw [if_neg (not_not_intro hcopy), hexec]
  dsimp only
  rw [if_neg (not_le.mpr hmem), if_pos htime2]
  exact ⟨_, _, rfl, rfl⟩

/-- C4 counterexample: with `time_limit = 25` ms and the default
`time_scale = 1.02`, the sandbox is invoked with 25 000 µs
(`trunc(25.5) * 1000`), not the 26 000 µs the claim's
`ceil(25.5) * 1000` would give. -/
theorem traditional_time_cap_not_ceil :
    (traditionalExecArgs "img" ⟨25, 256, "min", "sub1", 100, []⟩ (timeScaleOf none)).time_limit
        = 25000 ∧
    ⌈(25 : ℚ) * (51 / 50 : ℚ)⌉ * 1000 = 26000 := by
  constructor
  · show scaledTimeOf _ _ * 1000 = 25000
    rw [scaledTimeOf, timeScaleOf, rustTrunc_of_nonneg (by norm_num)]
    norm_num
  · rw [show ((25 : ℚ) * (51 / 50)) = 25 + 1 / 2 by norm_num]
    rw [show (26000 : ℤ) = 26 * 1000 by norm_num]
    congr 1
    rw [Int.ceil_eq_iff]
    constructor <;> norm_num

/-- Witness for C4's amended theorem at concrete inputs. -/
theorem traditional_time_cap_witness :
    (traditionalExecArgs "img" ⟨1000, 256, "min", "s", 100, []⟩ (51 / 50)).time_limit =
      rustTrunc ((1000 : ℚ) * (51 / 50)) * 1000 ∧
    ∃ tc flag,
      handle_traditional ⟨100, "in.txt", "out.txt"⟩ ⟨1000, 256, "min", "s", 100, []⟩
          (51 / 50) "img" (fun _ _ _ _ => .ok ⟨100, "ok"⟩)
          ⟨10000, 1024, 10000, "", false, 1000, false, none, none⟩
          ⟨true, fun _ => .ok ⟨0, 2000000, 0, "", false⟩, .ok 0 (some []), .ok [], .ok []⟩
          ⟨100, "in.txt", 0, "", "out.txt", 0, "judging", 0⟩ = .ok (tc, flag) ∧
        tc.status = "time_limit_exceed" := by
  constructor
  · exact traditional_time_cap.1 ⟨1000, 256, "min", "s", 100, []⟩ (51 / 50) "img"
  · exact traditional_time_cap.2.2 ⟨100, "in.txt", "out.txt"⟩ ⟨1000, 256, "min", "s", 100, []⟩
      (51 / 50) "img" (fun _ _ _ _ => .ok ⟨100, "ok"⟩)
      ⟨10000, 1024, 10000, "", false, 1000, false, none, none⟩
      ⟨true, fun _ => .ok ⟨0, 2000000, 0, "", false⟩, .ok 0 (some []), .ok [], .ok []⟩
      ⟨100, "in.txt", 0, "", "out.txt", 0, "judging", 0⟩ ⟨0, 2000000, 0, "", false⟩
      rfl rfl (by decide)
      (by rw [rustTrunc_of_nonneg (by norm_num)]
          show (2000000 : ℤ) ≥ ⌊((1000 : ℤ) : ℚ) * (51 / 50)⌋ * 1000
          norm_num)

/-- C1 (amended): a comparator error produces the per-testcase terminal
status `judge_failed` with score 0 only in submit-answer mode; in
traditional mode the error is converted into a score-0 comparison result
whose message is the error text, and the testcase is then classified by the
ordinary score rule — `wrong_answer` whenever `full_score > 0` — never
`judge_failed`. -/
theorem comparator_error_verdicts :
    (∀ (tc0 : SubmissionTestcaseResult) (testcase : ProblemTestcase) (inb outb : Bytes)
        (files : List (String × Bytes)) (v : Bytes) (e : String),
      (files.find? (fun p => p.1 == testcase.output)).map (fun p => p.2) = some v →
      ∃ tc, handle_submit_answer tc0 testcase (.ok inb) (.ok outb) files
          (fun _ _ _ _ => .error e) = .ok tc ∧
        tc.status = "judge_failed" ∧ tc.score = 0) ∧
    (∀ (testcase : ProblemTestcase) (subtask : ProblemSubtask) (ts : ℚ) (image : String)
        (cfg : ExtraJudgeConfig) (env : TcEnv) (tc0 : SubmissionTestcaseResult)
        (run_result : ExecuteResult) (e : String) (len : ℕ) (rb : Option Bytes)
        (inb outb : Bytes),
      env.copyInputOk = true →
      env.exec (traditionalExecArgs image subtask ts) = .ok run_result →
      rustDiv (rustDiv run_result.memory_cost 1024) 1024 < subtask.memory_limit →
      run_result.time_cost < scaledTimeOf subtask ts * 1000 →
      run_result.exit_code = 0 →
      env.outFile = .ok len rb →
      ¬len > i64AsU64 cfg.output_file_size_limit →
      env.inputRead = .ok inb →
      env.answerRead = .ok outb →
      0 < testcase.full_score →
      ∃ tc flag, handle_traditional testcase subtask ts image
          (fun _ _ _ _ => .error e) cfg env tc0 = .ok (tc, flag) ∧
        tc.status = "wrong_answer" ∧ tc.score = 0 ∧ tc.message = e) := by
  constructor
  · intro tc0 testcase inb outb files v e hfind
    unfold handle_submit_answer
    dsimp only
    rw [hfind]
    exact ⟨_, rfl, rfl, rfl⟩
  · intro testcase subtask ts image cfg env tc0 run_result e len rb inb outb
      hcopy hexec hmem htime hexit hout hlen hin hans hpos
    unfold handle_traditional
    rw [if_neg (not_not_intro hcopy), hexec]
    dsimp only
    rw [if_neg (not_le.mpr hmem), if_neg (not_le.mpr htime), if_neg (not_not_intro hexit),
      hout]
    dsimp only
    rw [if_neg hlen, hin, hans]
    dsimp only
    rw [if_pos hpos]
    exact ⟨_, _, rfl, rfl, rfl, rfl⟩

/-- C1 counterexample: a traditional testcase whose comparator call fails
(error "boom") ends with status `wrong_answer` (score 0, message "boom"),
not `judge_failed` as the claim states. -/
theorem handle_traditional_comparator_error_not_judge_failed :
    handle_traditional ⟨100, "in.txt", "out.txt"⟩
        ⟨1000, 256, "min", "sub1", 100, [⟨100, "in.txt", "out.txt"⟩]⟩ 1 "img"
        (fun _ _ _ _ => .error "boom") ⟨10000, 1024, 10000, "", false, 1000, false, none, none⟩
        ⟨true, fun _ => .ok ⟨0, 500, 0, "", false⟩, .ok 0 (some []), .ok [], .ok []⟩
        ⟨100, "in.txt", 0, "", "out.txt", 0, "judging", 0⟩ =
      .ok (⟨100, "in.txt", 0, "boom", "out.txt", 0, "wrong_answer", 1⟩, true) := by
  have hsc : scaledTimeOf ⟨1000, 256, "min", "sub1", 100, [⟨100, "in.txt", "out.txt"⟩]⟩
      (1 : ℚ) = 1000 := by
    rw [scaledTimeOf, rustTrunc_of_nonneg (by norm_num)]
    norm_num
  have hceil : (⌈((500 : ℤ) : ℚ) / 1000⌉ : ℤ) = 1 := by
    rw [show (((500 : ℤ) : ℚ) / 1000) = 1 / 2 by norm_num, Int.ceil_eq_iff]
    constructor <;> norm_num
  unfold handle_traditional
  dsimp only
  rw [if_neg (not_not_intro rfl), hsc]
  rw [if_neg (by decide : ¬rustDiv (rustDiv (0 : ℤ) 1024) 1024 ≥ 256),
    if_neg (by decide : ¬(500 : ℤ) ≥ 1000 * 1000),
    if_neg (not_not_intro rfl)]
  rw [if_neg (by decide : ¬(0 : ℕ) > i64AsU64 1000)]
  rw [if_pos (by decide : (0 : ℤ) < 100), hceil]
  rfl

/-- Witness for C1's amended theorem at concrete inputs. -/
theorem comparator_error_verdicts_witness :
    (∃ tc, handle_submit_answer ⟨100, "in.txt", 0, "", "out.txt", 0, "judging", 0⟩
        ⟨100, "in.txt", "out.txt"⟩ (.ok []) (.ok []) [("out.txt", [49])]
        (fun _ _ _ _ => .error "err") = .ok tc ∧
      tc.status = "judge_failed" ∧ tc.score = 0) ∧
    (∃ tc flag, handle_traditional ⟨100, "in.txt", "out.txt"⟩
        ⟨1000, 256, "min", "sub1", 100, [⟨100, "in.txt", "out.txt"⟩]⟩ 1 "img"
        (fun _ _ _ _ => .error "err") ⟨10000, 1024, 10000, "", false, 1000, false, none, none⟩
        ⟨true, fun _ => .ok ⟨0, 500, 0, "", false⟩, .ok 0 (some []), .ok [], .ok []⟩
        ⟨100, "in.txt", 0, "", "out.txt", 0, "judging", 0⟩ = .ok (tc, flag) ∧
      tc.status = "wrong_answer" ∧ tc.score = 0 ∧ tc.message = "err") :=
  ⟨comparator_error_verdicts.1 ⟨100, "in.txt", 0, "", "out.txt", 0, "judging", 0⟩
      ⟨100, "in.txt", "out.txt"⟩ [] [] [("out.txt", [49])] [49] "err" rfl,
    comparator_error_verdicts.2 ⟨100, "in.txt", "out.txt"⟩
      ⟨1000, 256, "min", "sub1", 100, [⟨100, "in.txt", "out.txt"⟩]⟩ 1 "img"
      ⟨10000, 1024, 10000, "", false, 1000, false, none, none⟩
      ⟨true, fun _ => .ok ⟨0, 500, 0, "", false⟩, .ok 0 (some []), .ok [], .ok []⟩
      ⟨100, "in.txt", 0, "", "out.txt", 0, "judging", 0⟩ ⟨0, 500, 0, "", false⟩ "err"
      0 (some []) [] [] rfl rfl (by decide)
      (by rw [scaledTimeOf, rustTrunc_of_nonneg (by norm_num)]
          show (500 : ℤ) < ⌊((1000 : ℤ) : ℚ) * 1⌋ * 1000
          norm_num)
      rfl rfl (by decide) rfl rfl (by decide)⟩

/-! ## Dependency graph (`src/task/local/dependency.rs`) -/

/-- `SkippedSubtask`. -/
structure SkippedSubtask where
  name : String
  reason : String
deriving Repr, DecidableEq

/-- `Vec::join(", ")`. -/
def joinComma : List String → String
  | [] => ""
  | [x] => x
  | x :: rest => x ++ ", " ++ joinComma rest

/-- `name_to_index` lookup: `HashMap::insert` keeps the last index inserted
for a name, so the lookup yields the last position of the name. -/
def nameToIndex (names : List String) (s : String) : Option ℕ :=
  ((names.enum.filter (fun p => p.2 = s)).map (fun p => p.1)).getLast?

/-- `DependencyGraph`: `heap` models the `BinaryHeap<Reverse<usize>>` as the
list of its entries (peek = minimum); `graph[u]` lists the dependencies of
`u` (edges `u → v`), `rev_graph` the reverse edges, `outdeg[u]` the number
of unsatisfied dependencies of `u`. -/
structure DependencyGraph where
  index_to_name : List String
  graph : List (List ℕ)
  rev_graph : List (List ℕ)
  outdeg : List ℤ
  heap : List ℕ
  dropped : List Bool
deriving Repr, DecidableEq

/-- `graph[u].push(v)` on a vector of adjacency lists. -/
def pushAt (l : List (List ℕ)) (i v : ℕ) : List (List ℕ) := l.set i (l.getD i [] ++ [v])

/-- `outdeg[u] += 1`. -/
def incAt (l : List ℤ) (i : ℕ) : List ℤ := l.set i (l.getD i 0 + 1)

/-- `outdeg[u] -= 1`. -/
def decAt (l : List ℤ) (i : ℕ) : List ℤ := l.set i (l.getD i 0 - 1)

/-- The adjacency-building core of `DependencyGraph::new`. -/
structure DepGraphCore where
  graph : List (List ℕ)
  rev_graph : List (List ℕ)
  outdeg : List ℤ

/-- One `(u, edges)` entry of the parsed dependency JSON (lines 53-66 of
`dependency.rs`): resolve `u`, then add each edge `u → v`. -/
def addDeps (names : List String) (c : DepGraphCore) (u : String) (edges : List String) :
    Except String DepGraphCore :=
  match nameToIndex names u with
  | none => .error ("Invalid subtask name `" ++ u ++ "` in dependency json!")
  | some u_idx =>
    edges.foldlM
      (fun c v =>
        match nameToIndex names v with
        | none => .error ("Invalid subtask name `" ++ v ++ "` in dependency json!")
        | some v_idx =>
          .ok { graph := pushAt c.graph u_idx v_idx,
                rev_graph := pushAt c.rev_graph v_idx u_idx,
                outdeg := incAt c.outdeg u_idx })
      c

/-- `DependencyGraph::new`: the parsed dependency JSON is the list of
`(name, dependencies)` pairs; the initial heap holds every index of
out-degree zero. -/
def DependencyGraph.new (names : List String)
    (deps : Option (List (String × List String))) : Except String DependencyGraph :=
  let n := names.length
  let core0 : DepGraphCore := ⟨List.replicate n [], List.replicate n [], List.replicate n 0⟩
  let coreE : Except String DepGraphCore :=
    match deps with
    | none => .ok core0
    | some parsed => parsed.foldlM (fun c p => addDeps names c p.1 p.2) core0
  coreE.map fun core =>
    { index_to_name := names
      graph := core.graph
      rev_graph := core.rev_graph
      outdeg := core.outdeg
      heap := (core.outdeg.enum.filter (fun p => p.2 = 0)).map (fun p => p.1)
      dropped := List.replicate n false }

/-- `DependencyGraph::next` (peek): the smallest index in the heap. -/
def DependencyGraph.next (g : DependencyGraph) : Option String :=
  (g.heap.min?).map (fun idx => g.index_to_name.getD idx "")

/-- One decrement step of `report`'s success loop: `*r -= 1;` and push the
node whose counter reached zero. -/
def reportStep (st : List ℤ × List ℕ) (j : ℕ) : List ℤ × List ℕ :=
  let o2 := decAt st.1 j
  if o2.getD j 0 = 0 then (o2, st.2 ++ [j]) else (o2, st.2)

/-- `DependencyGraph::report`: pop the minimum; on success decrement the
out-degree of every dependent, enqueue those reaching zero, and mark the
node dropped. -/
def DependencyGraph.report (g : DependencyGraph) (ok : Bool) : DependencyGraph :=
  match g.heap.min? with
  | none => g
  | some idx =>
    let rest := g.heap.erase idx
    if ok then
      let st := (g.rev_graph.getD idx []).foldl reportStep (g.outdeg, [])
      { g with heap := rest ++ st.2, outdeg := st.1, dropped := g.dropped.set idx true }
    else { g with heap := rest }

/-- `DependencyGraph::get_skipped_subtasks`: every index of nonzero
out-degree, with a reason naming its not-yet-dropped dependencies. -/
def DependencyGraph.get_skipped_subtasks (g : DependencyGraph) : List SkippedSubtask :=
  (List.range g.index_to_name.length).filterMap fun i =>
    if g.outdeg.getD i 0 ≠ 0 then
      some ⟨g.index_to_name.getD i "",
        "Skipped for failing `" ++
          joinComma (((g.graph.getD i []).filter
            (fun s => !(g.dropped.getD s false))).map (fun v => g.index_to_name.getD v "")) ++
          "`"⟩
    else none

/-- The executor's scheduling loop (`executor.rs` lines 284-363) advances
the graph by one `report` per issued subtask; a run is a list of
success/failure decisions. -/
def runOps (g : DependencyGraph) : List Bool → DependencyGraph
  | [] => g
  | ok :: rest => runOps (g.report ok) rest


/-! ### Lemmas about the dependency graph -/

theorem getD_set_self {α : Type} (l : List α) (i : ℕ) (v d : α) (h : i < l.length) :
    (l.set i v).getD i d = v := by
  simp [List.getD_eq_getElem?_getD, List.getElem?_set_self, h]

theorem getD_set_ne {α : Type} (l : List α) (i j : ℕ) (v d : α) (h : i ≠ j) :
    (l.set i v).getD j d = l.getD j d := by
  simp [List.getD_eq_getElem?_getD, List.getElem?_set_ne h]

theorem getD_replicate {α : Type} (n i : ℕ) (v d : α) :
    (List.replicate n v).getD i d = if i < n then v else d := by
  by_cases h : i < n
  · simp [List.getD_eq_getElem?_getD, List.getElem?_replicate, h]
  · rw [List.getD_eq_default _ _ (by simpa using Nat.le_of_not_lt h), if_neg h]

theorem decAt_getD (o : List ℤ) (j i : ℕ) :
    (decAt o j).getD i 0 =
      if i = j ∧ j < o.length then o.getD i 0 - 1 else o.getD i 0 := by
  unfold decAt
  by_cases hj : j < o.length
  · by_cases hij : i = j
    · subst hij
      rw [getD_set_self _ _ _ _ hj, if_pos ⟨rfl, hj⟩]
    · rw [getD_set_ne _ _ _ _ _ (fun h => hij h.symm), if_neg (fun h => hij h.1)]
  · rw [List.set_eq_of_length_le (Nat.le_of_not_lt hj), if_neg (fun h => hj h.2)]

theorem decAt_length (o : List ℤ) (j : ℕ) : (decAt o j).length = o.length := by
  simp [decAt]

theorem incAt_getD (o : List ℤ) (j i : ℕ) :
    (incAt o j).getD i 0 =
      if i = j ∧ j < o.length then o.getD i 0 + 1 else o.getD i 0 := by
  unfold incAt
  by_cases hj : j < o.length
  · by_cases hij : i = j
    · subst hij
      rw [getD_set_self _ _ _ _ hj, if_pos ⟨rfl, hj⟩]
    · rw [getD_set_ne _ _ _ _ _ (fun h => hij h.symm), if_neg (fun h => hij h.1)]
  · rw [List.set_eq_of_length_le (Nat.le_of_not_lt hj), if_neg (fun h => hj h.2)]

theorem pushAt_getD (l : List (List ℕ)) (i v j : ℕ) :
    (pushAt l i v).getD j [] =
      if j = i ∧ i < l.length then l.getD j [] ++ [v] else l.getD j [] := by
  unfold pushAt
  by_cases hi : i < l.length
  · by_cases hij : j = i
    · subst hij
      rw [getD_set_self _ _ _ _ hi, if_pos ⟨rfl, hi⟩]
    · rw [getD_set_ne _ _ _ _ _ (fun h => hij h.symm), if_neg (fun h => hij h.1)]
  · rw [List.set_eq_of_length_le (Nat.le_of_not_lt hi), if_neg (fun h => hi h.2)]

/-- The number of not-yet-dropped dependencies in an adjacency list
(`outdeg` tracks exactly this quantity). -/
def countNonDropped (deps : List ℕ) (dropped : List Bool) : ℤ :=
  (deps.countP (fun j => !(dropped.getD j false)) : ℤ)

theorem countNonDropped_nonneg (deps : List ℕ) (dropped : List Bool) :
    0 ≤ countNonDropped deps dropped := by
  unfold countNonDropped
  exact_mod_cast Nat.zero_le _

theorem countNonDropped_set_true (deps : List ℕ) (dropped : List Bool) (idx : ℕ)
    (hlt : idx < dropped.length) (h : dropped.getD idx false = false) :
    countNonDropped deps (dropped.set idx true) =
      countNonDropped deps dropped - (deps.count idx : ℤ) := by
  induction deps with
  | nil => simp [countNonDropped]
  | cons j rest ih =>
    unfold countNonDropped at ih ⊢
    rw [List.countP_cons, List.countP_cons, List.count_cons]
    by_cases hj : j = idx
    · subst hj
      rw [getD_set_self _ _ _ _ hlt, h]
      simp only [Bool.not_true, Bool.not_false, beq_self_eq_true, if_pos rfl]
      push_cast
      omega
    · rw [getD_set_ne _ _ _ _ _ (fun hh => hj hh.symm), beq_false_of_ne hj]
      simp only [Bool.false_eq_true, if_false]
      push_cast
      omega

theorem countNonDropped_ge_count (deps : List ℕ) (dropped : List Bool) (x : ℕ)
    (h : dropped.getD x false = false) :
    (deps.count x : ℤ) ≤ countNonDropped deps dropped := by
  induction deps with
  | nil => simp [countNonDropped]
  | cons j rest ih =>
    unfold countNonDropped at ih ⊢
    rw [List.countP_cons, List.count_cons]
    by_cases hj : j = x
    · subst hj
      rw [h, beq_self_eq_true]
      simp only [Bool.not_false, if_pos rfl]
      push_cast
      omega
    · rw [beq_false_of_ne hj]
      simp only [Bool.false_eq_true, if_false]
      have hite : (0 : ℕ) ≤ if (!dropped.getD j false) = true then 1 else 0 := Nat.zero_le _
      push_cast
      have hite2 : (0 : ℤ) ≤ if (!dropped.getD j false) = true then (1 : ℤ) else 0 := by
        split <;> norm_num
      omega

theorem reportStep_eq (st : List ℤ × List ℕ) (j : ℕ) :
    reportStep st j =
      (decAt st.1 j, if (decAt st.1 j).getD j 0 = 0 then st.2 ++ [j] else st.2) := by
  unfold reportStep
  dsimp only
  by_cases h : (decAt st.1 j).getD j 0 = 0
  · rw [if_pos h, if_pos h]
  · rw [if_neg h, if_neg h]

theorem decAt_getD_lt (o : List ℤ) (j0 : ℕ) (h : j0 < o.length) (y : ℕ) :
    (decAt o j0).getD y 0 = if y = j0 then o.getD y 0 - 1 else o.getD y 0 := by
  rw [decAt_getD]
  by_cases hy : y = j0
  · rw [if_pos ⟨hy, h⟩, if_pos hy]
  · rw [if_neg (fun hh => hy hh.1), if_neg hy]

theorem reportFold_length (l : List ℕ) :
    ∀ (o : List ℤ) (p : List ℕ), ((l.foldl reportStep (o, p)).1).length = o.length := by
  induction l with
  | nil => intro o p; rfl
  | cons j0 rest ih =>
    intro o p
    rw [List.foldl_cons, reportStep_eq]
    dsimp only
    by_cases h : (decAt o j0).getD j0 0 = 0
    · rw [if_pos h, ih, decAt_length]
    · rw [if_neg h, ih, decAt_length]

theorem reportFold_outdeg (l : List ℕ) :
    ∀ (o : List ℤ) (p : List ℕ) (i : ℕ), (∀ j ∈ l, j < o.length) →
      ((l.foldl reportStep (o, p)).1).getD i 0 = o.getD i 0 - (l.count i : ℤ) := by
  induction l with
  | nil => intro o p i _; simp
  | cons j0 rest ih =>
    intro o p i hlen
    have hj0len : j0 < o.length := hlen j0 (by simp)
    have hlen2 : ∀ j ∈ rest, j < (decAt o j0).length := by
      rw [decAt_length]
      exact fun j hj => hlen j (by simp [hj])
    rw [List.foldl_cons, reportStep_eq]
    dsimp only
    have hmain : ∀ q : List ℕ,
        ((rest.foldl reportStep (decAt o j0, q)).1).getD i 0 =
          o.getD i 0 - ((j0 :: rest).count i : ℤ) := by
      intro q
      rw [ih _ q i hlen2, decAt_getD_lt o j0 hj0len]
      by_cases hij : i = j0
      · rw [if_pos hij, hij, List.count_cons_self]
        push_cast
        ring
      · rw [if_neg hij, List.count_cons_of_ne (fun hh => hij hh) rest]
    by_cases h : (decAt o j0).getD j0 0 = 0
    · rw [if_pos h]
      exact hmain _
    · rw [if_neg h]
      exact hmain _

theorem reportFold_pushes_mem (l : List ℕ) :
    ∀ (o : List ℤ) (p : List ℕ), (∀ j ∈ l, 0 < o.getD j 0) →
      (∀ j ∈ l, (l.count j : ℤ) ≤ o.getD j 0) → (∀ j ∈ l, j < o.length) →
      ∀ x, x ∈ (l.foldl reportStep (o, p)).2 ↔
        x ∈ p ∨ (x ∈ l ∧ o.getD x 0 = (l.count x : ℤ)) := by
  induction l with
  | nil => intro o p _ _ _ x; simp
  | cons j0 rest ih =>
    intro o p hA hB hlen x
    have hj0len : j0 < o.length := hlen j0 (by simp)
    have hj0pos : 0 < o.getD j0 0 := hA j0 (by simp)
    have hd := decAt_getD_lt o j0 hj0len
    have hA2 : ∀ j ∈ rest, 0 < (decAt o j0).getD j 0 := by
      intro j hj
      rw [hd j]
      by_cases hjj : j = j0
      · rw [if_pos hjj, hjj]
        have hcount := hB j0 (by simp)
        rw [List.count_cons_self] at hcount
        have hrest : 1 ≤ rest.count j0 := List.one_le_count_iff.mpr (hjj ▸ hj)
        push_cast at hcount
        omega
      · rw [if_neg hjj]
        exact hA j (by simp [hj])
    have hB2 : ∀ j ∈ rest, (rest.count j : ℤ) ≤ (decAt o j0).getD j 0 := by
      intro j hj
      rw [hd j]
      by_cases hjj : j = j0
      · rw [if_pos hjj, hjj]
        have hcount := hB j0 (by simp)
        rw [List.count_cons_self] at hcount
        push_cast at hcount ⊢
        omega
      · rw [if_neg hjj]
        have hcount := hB j (by simp [hj])
        rw [List.count_cons_of_ne hjj] at hcount
        exact hcount
    have hlen2 : ∀ j ∈ rest, j < (decAt o j0).length := by
      rw [decAt_length]
      exact fun j hj => hlen j (by simp [hj])
    rw [List.foldl_cons, reportStep_eq]
    dsimp only
    rw [hd j0, if_pos rfl]
    by_cases hpush : o.getD j0 0 - 1 = 0
    · rw [if_pos hpush, ih (decAt o j0) (p ++ [j0]) hA2 hB2 hlen2 x]
      constructor
      · rintro (hx | ⟨hxl, hxe⟩)
        · rcases List.mem_append.mp hx with hx | hx
          · exact Or.inl hx
          · have hxj : x = j0 := by simpa using hx
            refine Or.inr ⟨by simp [hxj], ?_⟩
            rw [hxj, List.count_cons_self]
            have hcount := hB j0 (by simp)
            rw [List.count_cons_self] at hcount
            push_cast at hcount ⊢
            omega
        · rw [hd x] at hxe
          by_cases hxj : x = j0
          · rw [if_pos hxj] at hxe
            refine Or.inr ⟨by simp [hxl], ?_⟩
            rw [hxj] at hxe ⊢
            rw [List.count_cons_self]
            push_cast at hxe ⊢
            omega
          · rw [if_neg hxj] at hxe
            refine Or.inr ⟨by simp [hxl], ?_⟩
            rw [List.count_cons_of_ne hxj]
            exact hxe
      · rintro (hx | ⟨hxl, hxe⟩)
        · exact Or.inl (List.mem_append.mpr (Or.inl hx))
        · by_cases hxj : x = j0
          · exact Or.inl (List.mem_append.mpr (Or.inr (by simp [hxj])))
          · have hxrest : x ∈ rest := by
              rcases List.mem_cons.mp hxl with hh | hh
              · exact absurd hh hxj
              · exact hh
            refine Or.inr ⟨hxrest, ?_⟩
            rw [hd x, if_neg hxj]
            rw [List.count_cons_of_ne hxj] at hxe
            exact hxe
    · rw [if_neg hpush, ih (decAt o j0) p hA2 hB2 hlen2 x]
      constructor
      · rintro (hx | ⟨hxl, hxe⟩)
        · exact Or.inl hx
        · rw [hd x] at hxe
          by_cases hxj : x = j0
          · rw [if_pos hxj] at hxe
            refine Or.inr ⟨by simp [hxl], ?_⟩
            rw [hxj] at hxe ⊢
            rw [List.count_cons_self]
            push_cast at hxe ⊢
            omega
          · rw [if_neg hxj] at hxe
            refine Or.inr ⟨by simp [hxl], ?_⟩
            rw [List.count_cons_of_ne hxj]
            exact hxe
      · rintro (hx | ⟨hxl, hxe⟩)
        · exact Or.inl hx
        · by_cases hxj : x = j0
          · rw [hxj] at hxe ⊢
            rw [List.count_cons_self] at hxe
            by_cases hxrest : j0 ∈ rest
            · refine Or.inr ⟨hxrest, ?_⟩
              rw [hd j0, if_pos rfl]
              push_cast at hxe ⊢
              omega
            · rw [List.count_eq_zero.mpr hxrest] at hxe
              push_cast at hxe
              omega
          · have hxrest : x ∈ rest := by
              rcases List.mem_cons.mp hxl with hh | hh
              · exact absurd hh hxj
              · exact hh
            refine Or.inr ⟨hxrest, ?_⟩
            rw [hd x, if_neg hxj]
            rw [List.count_cons_of_ne hxj] at hxe
            exact hxe

theorem reportFold_pushes_nodup (l : List ℕ) :
    ∀ (o : List ℤ) (p : List ℕ), p.Nodup → (∀ j ∈ p, o.getD j 0 ≤ 0) →
      (∀ j ∈ l, j < o.length) → ((l.foldl reportStep (o, p)).2).Nodup := by
  induction l with
  | nil => intro o p hp _ _; exact hp
  | cons j0 rest ih =>
    intro o p hp hple hlen
    have hj0len : j0 < o.length := hlen j0 (by simp)
    have hlen2 : ∀ j ∈ rest, j < (decAt o j0).length := by
      rw [decAt_length]
      exact fun j hj => hlen j (by simp [hj])
    rw [List.foldl_cons, reportStep_eq]
    dsimp only
    have hle2 : ∀ j ∈ p, (decAt o j0).getD j 0 ≤ 0 := by
      intro j hj
      have := hple j hj
      rw [decAt_getD_lt o j0 hj0len j]
      by_cases hjj : j = j0
      · rw [if_pos hjj]
        omega
      · rw [if_neg hjj]
        omega
    by_cases hpush : (decAt o j0).getD j0 0 = 0
    · rw [if_pos hpush]
      rw [decAt_getD_lt o j0 hj0len j0, if_pos rfl] at hpush
      apply ih _ _ _ _ hlen2
      · refine List.Nodup.append hp (by simp) ?_
        intro x hx hx2
        have hxj : x = j0 := by simpa using hx2
        have h1 := hple x hx
        rw [hxj] at h1
        omega
      · intro j hj
        rcases List.mem_append.mp hj with hj | hj
        · exact hle2 j hj
        · have hjj : j = j0 := by simpa using hj
          rw [hjj, decAt_getD_lt o j0 hj0len j0, if_pos rfl]
          omega
    · rw [if_neg hpush]
      exact ih _ _ hp hle2 hlen2

/-- Well-formedness of a `DependencyGraph` state: consistent lengths,
`rev_graph` mirroring `graph`, `outdeg` counting not-yet-dropped
dependencies, and a heap of ready (zero out-degree, not dropped) nodes. -/
structure DGWf (g : DependencyGraph) : Prop where
  len_graph : g.graph.length = g.index_to_name.length
  len_rev : g.rev_graph.length = g.index_to_name.length
  len_outdeg : g.outdeg.length = g.index_to_name.length
  len_dropped : g.dropped.length = g.index_to_name.length
  edges_lt : ∀ i, ∀ j ∈ g.graph.getD i [], j < g.index_to_name.length
  rev_edges_lt : ∀ i, ∀ j ∈ g.rev_graph.getD i [], j < g.index_to_name.length
  mirror : ∀ i j, (g.graph.getD i []).count j = (g.rev_graph.getD j []).count i
  outdeg_eq : ∀ i, g.outdeg.getD i 0 = countNonDropped (g.graph.getD i []) g.dropped
  heap_lt : ∀ j ∈ g.heap, j < g.index_to_name.length
  heap_outdeg : ∀ j ∈ g.heap, g.outdeg.getD j 0 = 0
  heap_not_dropped : ∀ j ∈ g.heap, g.dropped.getD j false = false
  heap_nodup : g.heap.Nodup
  dropped_outdeg : ∀ i, g.dropped.getD i false = true → g.outdeg.getD i 0 = 0

theorem report_preserves_static (g : DependencyGraph) (ok : Bool) :
    (g.report ok).index_to_name = g.index_to_name ∧ (g.report ok).graph = g.graph ∧
      (g.report ok).rev_graph = g.rev_graph := by
  unfold DependencyGraph.report
  cases g.heap.min? with
  | none => exact ⟨rfl, rfl, rfl⟩
  | some idx =>
    dsimp only
    by_cases h : ok = true
    · rw [if_pos h]
      exact ⟨rfl, rfl, rfl⟩
    · rw [if_neg h]
      exact ⟨rfl, rfl, rfl⟩

theorem report_wf (g : DependencyGraph) (ok : Bool) (h : DGWf g) : DGWf (g.report ok) := by
  unfold DependencyGraph.report
  cases hmin : g.heap.min? with
  | none => exact h
  | some idx =>
    have hidx : idx ∈ g.heap := List.min?_mem (fun a b => min_choice a b) hmin
    have idxlt : idx < g.index_to_name.length := h.heap_lt idx hidx
    have idxdeg : g.outdeg.getD idx 0 = 0 := h.heap_outdeg idx hidx
    have idxnd : g.dropped.getD idx false = false := h.heap_not_dropped idx hidx
    dsimp only
    by_cases hok : ok = true
    · rw [if_pos hok]
      set l := g.rev_graph.getD idx [] with hl
      have hlenl : ∀ j ∈ l, j < g.outdeg.length := by
        intro j hj
        rw [h.len_outdeg]
        exact h.rev_edges_lt idx j hj
      have hcg : ∀ j, (l.count j : ℤ) = ((g.graph.getD j []).count idx : ℤ) := by
        intro j
        rw [hl, h.mirror j idx]
      have hA : ∀ j ∈ l, 0 < g.outdeg.getD j 0 := by
        intro j hj
        rw [h.outdeg_eq j]
        have h1 : 1 ≤ l.count j := List.one_le_count_iff.mpr hj
        have h2 : ((g.graph.getD j []).count idx : ℤ) ≤
            countNonDropped (g.graph.getD j []) g.dropped :=
          countNonDropped_ge_count _ _ _ idxnd
        have h3 := hcg j
        omega
      have hB : ∀ j ∈ l, (l.count j : ℤ) ≤ g.outdeg.getD j 0 := by
        intro j _
        rw [h.outdeg_eq j, hcg j]
        exact countNonDropped_ge_count _ _ _ idxnd
      have hpmem := reportFold_pushes_mem l g.outdeg [] hA hB hlenl
      have hpodeg := fun i => reportFold_outdeg l g.outdeg [] i hlenl
      have hrest_sub : ∀ j ∈ g.heap.erase idx, j ∈ g.heap := fun j hj =>
        List.mem_of_mem_erase hj
      have hrest_count : ∀ j ∈ g.heap.erase idx, l.count j = 0 := by
        intro j hj
        have h0 : g.outdeg.getD j 0 = 0 := h.heap_outdeg j (hrest_sub j hj)
        have := hB j
        by_cases hm : j ∈ l
        · have h1 := List.one_le_count_iff.mpr hm
          have h2 := hB j hm
          omega
        · exact List.count_eq_zero.mpr hm
      have hpush_facts : ∀ x ∈ (l.foldl reportStep (g.outdeg, [])).2,
          x ∈ l ∧ g.outdeg.getD x 0 = (l.count x : ℤ) := by
        intro x hx
        rcases (hpmem x).mp hx with hc | hc
        · exact absurd hc (by simp)
        · exact hc
      have hne_idx : ∀ x ∈ (l.foldl reportStep (g.outdeg, [])).2, x ≠ idx := by
        intro x hx he
        obtain ⟨hxl, hxe⟩ := hpush_facts x hx
        have h1 : 1 ≤ l.count x := List.one_le_count_iff.mpr hxl
        rw [he] at hxe
        have : (l.count idx : ℤ) = 0 := by omega
        rw [← he] at this
        omega
      have hdroplen : idx < g.dropped.length := by
        rw [h.len_dropped]
        exact idxlt
      refine ⟨by simp [h.len_graph], by simp [h.len_rev], ?_, ?_, h.edges_lt, h.rev_edges_lt,
        h.mirror, ?_, ?_, ?_, ?_, ?_, ?_⟩
      · dsimp only
        rw [reportFold_length, h.len_outdeg]
      · dsimp only
        rw [List.length_set, h.len_dropped]
      · intro i
        dsimp only
        rw [hpodeg i, h.outdeg_eq i,
          countNonDropped_set_true _ _ _ hdroplen idxnd, hcg i]
      · intro j hj
        dsimp only at hj
        rcases List.mem_append.mp hj with hj | hj
        · exact h.heap_lt j (hrest_sub j hj)
        · exact h.rev_edges_lt idx j (hpush_facts j hj).1
      · intro j hj
        dsimp only at hj ⊢
        rw [hpodeg j]
        rcases List.mem_append.mp hj with hj | hj
        · rw [h.heap_outdeg j (hrest_sub j hj), hrest_count j hj]
          norm_num
        · obtain ⟨_, hxe⟩ := hpush_facts j hj
          omega
      · intro j hj
        dsimp only at hj ⊢
        rcases List.mem_append.mp hj with hj | hj
        · have hne : j ≠ idx := by
            intro he
            rw [he] at hj
            exact (List.Nodup.not_mem_erase h.heap_nodup) hj
          rw [getD_set_ne _ _ _ _ _ (fun hh => hne hh.symm)]
          exact h.heap_not_dropped j (hrest_sub j hj)
        · have hne : j ≠ idx := hne_idx j hj
          rw [getD_set_ne _ _ _ _ _ (fun hh => hne hh.symm)]
          obtain ⟨hxl, hxe⟩ := hpush_facts j hj
          by_contra hcontra
          have hdt : g.dropped.getD j false = true := by
            cases hb : g.dropped.getD j false
            · exact absurd hb hcontra
            · rfl
          have := h.dropped_outdeg j hdt
          have h1 : 1 ≤ l.count j := List.one_le_count_iff.mpr hxl
          omega
      · dsimp only
        refine List.Nodup.append (List.Nodup.erase _ h.heap_nodup)
          (reportFold_pushes_nodup l g.outdeg [] (by simp) (by simp) hlenl) ?_
        intro x hx hx2
        have h0 : g.outdeg.getD x 0 = 0 := h.heap_outdeg x (hrest_sub x hx)
        obtain ⟨hxl, hxe⟩ := hpush_facts x hx2
        have h1 : 1 ≤ l.count x := List.one_le_count_iff.mpr hxl
        omega
      · intro i hdi
        dsimp only at hdi ⊢
        rw [hpodeg i]
        by_cases hii : i = idx
        · rw [hii]
          have hcount : ((g.graph.getD idx []).count idx : ℤ) ≤
              countNonDropped (g.graph.getD idx []) g.dropped :=
            countNonDropped_ge_count _ _ _ idxnd
          have := h.outdeg_eq idx
          have h3 := hcg idx
          omega
        · rw [getD_set_ne _ _ _ _ _ (fun hh => hii hh.symm)] at hdi
          have h0 := h.dropped_outdeg i hdi
          have hcount : ((g.graph.getD i []).count idx : ℤ) ≤
              countNonDropped (g.graph.getD i []) g.dropped :=
            countNonDropped_ge_count _ _ _ idxnd
          have := h.outdeg_eq i
          have h3 := hcg i
          omega
    · rw [if_neg hok]
      refine ⟨h.len_graph, h.len_rev, h.len_outdeg, h.len_dropped, h.edges_lt,
        h.rev_edges_lt, h.mirror, h.outdeg_eq, ?_, ?_, ?_, ?_, h.dropped_outdeg⟩
      · exact fun j hj => h.heap_lt j (List.mem_of_mem_erase hj)
      · exact fun j hj => h.heap_outdeg j (List.mem_of_mem_erase hj)
      · exact fun j hj => h.heap_not_dropped j (List.mem_of_mem_erase hj)
      · exact List.Nodup.erase _ h.heap_nodup

/-- Well-formedness of the adjacency-building core during `new`. -/
structure CoreWf (n : ℕ) (c : DepGraphCore) : Prop where
  len_graph : c.graph.length = n
  len_rev : c.rev_graph.length = n
  len_outdeg : c.outdeg.length = n
  edges_lt : ∀ i, ∀ j ∈ c.graph.getD i [], j < n
  rev_edges_lt : ∀ i, ∀ j ∈ c.rev_graph.getD i [], j < n
  mirror : ∀ i j, (c.graph.getD i []).count j = (c.rev_graph.getD j []).count i
  outdeg_len : ∀ i, c.outdeg.getD i 0 = ((c.graph.getD i []).length : ℤ)

theorem foldlM_except_inv {α β : Type} (P : β → Prop) (f : β → α → Except String β)
    (hf : ∀ b a b₂, P b → f b a = .ok b₂ → P b₂) :
    ∀ (l : List α) (b b₂ : β), P b → l.foldlM f b = .ok b₂ → P b₂ := by
  intro l
  induction l with
  | nil =>
    intro b b₂ hb hfold
    simp only [List.foldlM_nil] at hfold
    cases hfold
    exact hb
  | cons a rest ih =>
    intro b b₂ hb hfold
    rw [List.foldlM_cons] at hfold
    cases hfa : f b a with
    | error e =>
      rw [hfa] at hfold
      exact absurd hfold (by simp [Bind.bind, Except.bind])
    | ok b1 =>
      rw [hfa] at hfold
      exact ih b1 b₂ (hf b a b1 hb hfa) hfold

theorem nameToIndex_lt (names : List String) (s : String) (i : ℕ)
    (h : nameToIndex names s = some i) : i < names.length := by
  unfold nameToIndex at h
  have hmem := List.mem_of_mem_getLast? h
  obtain ⟨p, hp, hpe⟩ := List.mem_map.mp hmem
  have hpe2 := List.mem_filter.mp hp
  obtain ⟨j, v⟩ := p
  have := List.mk_mem_enum_iff_getElem?.mp hpe2.1
  rw [List.getElem?_eq_some] at this
  dsimp only at hpe
  rw [← hpe]
  exact this.1

theorem addEdge_corewf (n : ℕ) (c : DepGraphCore) (u_idx v_idx : ℕ)
    (hu : u_idx < n) (hv : v_idx < n) (h : CoreWf n c) :
    CoreWf n (⟨pushAt c.graph u_idx v_idx, pushAt c.rev_graph v_idx u_idx,
      incAt c.outdeg u_idx⟩ : DepGraphCore) := by
  have hug : u_idx < c.graph.length := by rw [h.len_graph]; exact hu
  have hvr : v_idx < c.rev_graph.length := by rw [h.len_rev]; exact hv
  have huo : u_idx < c.outdeg.length := by rw [h.len_outdeg]; exact hu
  refine ⟨?_, ?_, ?_, ?_, ?_, ?_, ?_⟩
  · simp [pushAt, h.len_graph]
  · simp [pushAt, h.len_rev]
  · simp [incAt, h.len_outdeg]
  · intro i j hj
    dsimp only at hj
    rw [pushAt_getD] at hj
    by_cases hi : i = u_idx ∧ u_idx < c.graph.length
    · rw [if_pos hi] at hj
      rcases List.mem_append.mp hj with hj | hj
      · exact h.edges_lt i j hj
      · have : j = v_idx := by simpa using hj
        rw [this]
        exact hv
    · rw [if_neg hi] at hj
      exact h.edges_lt i j hj
  · intro i j hj
    dsimp only at hj
    rw [pushAt_getD] at hj
    by_cases hi : i = v_idx ∧ v_idx < c.rev_graph.length
    · rw [if_pos hi] at hj
      rcases List.mem_append.mp hj with hj | hj
      · exact h.rev_edges_lt i j hj
      · have : j = u_idx := by simpa using hj
        rw [this]
        exact hu
    · rw [if_neg hi] at hj
      exact h.rev_edges_lt i j hj
  · intro i j
    dsimp only
    rw [pushAt_getD, pushAt_getD]
    by_cases hi : i = u_idx
    · by_cases hj : j = v_idx
      · rw [if_pos ⟨hi, hug⟩, if_pos ⟨hj, hvr⟩, List.count_append, List.count_append, hi, hj]
        have h1 : List.count v_idx [v_idx] = 1 := by simp
        have h2 : List.count u_idx [u_idx] = 1 := by simp
        rw [h1, h2, h.mirror u_idx v_idx]
      · rw [if_pos ⟨hi, hug⟩, if_neg (fun hh => hj hh.1), List.count_append]
        have : List.count j [v_idx] = 0 := by
          rw [List.count_eq_zero]
          simpa using hj
        rw [this, Nat.add_zero]
        exact h.mirror i j
    · by_cases hj : j = v_idx
      · rw [if_neg (fun hh => hi hh.1), if_pos ⟨hj, hvr⟩, List.count_append]
        have : List.count i [u_idx] = 0 := by
          rw [List.count_eq_zero]
          simpa using hi
        rw [this, Nat.add_zero]
        exact h.mirror i j
      · rw [if_neg (fun hh => hi hh.1), if_neg (fun hh => hj hh.1)]
        exact h.mirror i j
  · intro i
    dsimp only
    rw [incAt_getD, pushAt_getD]
    by_cases hi : i = u_idx
    · rw [if_pos ⟨hi, huo⟩, if_pos ⟨hi, hug⟩, h.outdeg_len i]
      simp
    · rw [if_neg (fun hh => hi hh.1), if_neg (fun hh => hi hh.1)]
      exact h.outdeg_len i

theorem addDeps_corewf (names : List String) (c c₂ : DepGraphCore) (u : String)
    (edges : List String) (h : CoreWf names.length c)
    (hadd : addDeps names c u edges = .ok c₂) : CoreWf names.length c₂ := by
  unfold addDeps at hadd
  cases hu : nameToIndex names u with
  | none =>
    rw [hu] at hadd
    cases hadd
  | some u_idx =>
    rw [hu] at hadd
    have hult : u_idx < names.length := nameToIndex_lt names u u_idx hu
    refine foldlM_except_inv (CoreWf names.length) _ ?_ edges c c₂ h hadd
    intro b v b₂ hb hstep
    cases hv : nameToIndex names v with
    | none =>
      rw [hv] at hstep
      cases hstep
    | some v_idx =>
      rw [hv] at hstep
      cases hstep
      exact addEdge_corewf names.length b u_idx v_idx hult
        (nameToIndex_lt names v v_idx hv) hb

theorem core0_corewf (n : ℕ) :
    CoreWf n (⟨List.replicate n [], List.replicate n [], List.replicate n 0⟩ : DepGraphCore) := by
  have hg : ∀ i, (List.replicate n ([] : List ℕ)).getD i [] = [] := by
    intro i
    rw [getD_replicate]
    split <;> rfl
  have ho : ∀ i, (List.replicate n (0 : ℤ)).getD i 0 = 0 := by
    intro i
    rw [getD_replicate]
    split <;> rfl
  refine ⟨by simp, by simp, by simp, ?_, ?_, ?_, ?_⟩
  · intro i j hj
    rw [hg i] at hj
    cases hj
  · intro i j hj
    rw [hg i] at hj
    cases hj
  · intro i j
    rw [hg i, hg j]
    simp
  · intro i
    rw [ho i, hg i]
    rfl

theorem new_wf (names : List String) (deps : Option (List (String × List String)))
    (g : DependencyGraph) (h : DependencyGraph.new names deps = .ok g) : DGWf g := by
  unfold DependencyGraph.new at h
  dsimp only at h
  have hcore : ∃ core : DepGraphCore, CoreWf names.length core ∧
      g = { index_to_name := names, graph := core.graph, rev_graph := core.rev_graph,
            outdeg := core.outdeg,
            heap := (core.outdeg.enum.filter (fun p => p.2 = 0)).map (fun p => p.1),
            dropped := List.replicate names.length false } := by
    cases deps with
    | none =>
      dsimp only [Except.map] at h
      cases h
      exact ⟨_, core0_corewf names.length, rfl⟩
    | some parsed =>
      dsimp only at h
      cases hfold : parsed.foldlM (fun c p => addDeps names c p.1 p.2)
          (⟨List.replicate names.length [], List.replicate names.length [],
            List.replicate names.length 0⟩ : DepGraphCore) with
      | error e =>
        rw [hfold] at h
        cases h
      | ok core =>
        rw [hfold] at h
        dsimp only [Except.map] at h
        cases h
        refine ⟨core, ?_, rfl⟩
        exact foldlM_except_inv (CoreWf names.length) _
          (fun b a b₂ hb hs => addDeps_corewf names b b₂ a.1 a.2 hb hs)
          parsed _ core (core0_corewf names.length) hfold
  obtain ⟨core, hcwf, rfl⟩ := hcore
  have hdfalse : ∀ i, (List.replicate names.length false).getD i false = false := by
    intro i
    rw [getD_replicate]
    split <;> rfl
  have hheapmem : ∀ j ∈ (core.outdeg.enum.filter (fun p => p.2 = 0)).map (fun p => p.1),
      j < names.length ∧ core.outdeg.getD j 0 = 0 := by
    intro j hj
    obtain ⟨p, hp, hpe⟩ := List.mem_map.mp hj
    have hpf := List.mem_filter.mp hp
    obtain ⟨i, v⟩ := p
    have henum := List.mk_mem_enum_iff_getElem?.mp hpf.1
    rw [List.getElem?_eq_some] at henum
    obtain ⟨hlt, hval⟩ := henum
    have hv0 : v = 0 := by simpa using hpf.2
    dsimp only at hpe
    subst hpe
    constructor
    · rw [← hcwf.len_outdeg]
      exact hlt
    · rw [List.getD_eq_getElem?_getD]
      rw [List.getElem?_eq_getElem hlt, hval, hv0]
      rfl
  constructor
  · exact hcwf.len_graph
  · exact hcwf.len_rev
  · exact hcwf.len_outdeg
  · simp
  · exact hcwf.edges_lt
  · exact hcwf.rev_edges_lt
  · exact hcwf.mirror
  · intro i
    dsimp only
    rw [hcwf.outdeg_len i]
    unfold countNonDropped
    congr 1
    rw [List.countP_eq_length_filter]
    congr 1
    symm
    rw [List.filter_eq_self]
    intro a _
    rw [hdfalse a]
    rfl
  · exact fun j hj => (hheapmem j hj).1
  · exact fun j hj => (hheapmem j hj).2
  · intro j _
    exact hdfalse j
  · dsimp only
    have hsub : (core.outdeg.enum.filter (fun p => p.2 = 0)).Sublist core.outdeg.enum :=
      List.filter_sublist _
    have : ((core.outdeg.enum.filter (fun p => p.2 = 0)).map (fun p => p.1)).Sublist
        (core.outdeg.enum.map (fun p => p.1)) := List.Sublist.map _ hsub
    refine List.Nodup.sublist this ?_
    rw [show (fun p : ℕ × ℤ => p.1) = Prod.fst from rfl, List.enum_map_fst]
    exact List.nodup_range _
  · intro i hdi
    rw [hdfalse i] at hdi
    cases hdi

theorem runOps_wf (ops : List Bool) : ∀ g, DGWf g → DGWf (runOps g ops) := by
  induction ops with
  | nil => intro g h; exact h
  | cons ok rest ih => intro g h; exact ih _ (report_wf g ok h)

theorem runOps_static (ops : List Bool) :
    ∀ g, (runOps g ops).index_to_name = g.index_to_name ∧
      (runOps g ops).graph = g.graph := by
  induction ops with
  | nil => intro g; exact ⟨rfl, rfl⟩
  | cons ok rest ih =>
    intro g
    have h1 := report_preserves_static g ok
    have h2 := ih (g.report ok)
    exact ⟨h2.1.trans h1.1, h2.2.trans h1.2.1⟩

theorem new_names (names : List String) (deps : Option (List (String × List String)))
    (g : DependencyGraph) (h : DependencyGraph.new names deps = .ok g) :
    g.index_to_name = names := by
  unfold DependencyGraph.new at h
  dsimp only at h
  cases deps with
  | none =>
    dsimp only [Except.map] at h
    cases h
    rfl
  | some parsed =>
    dsimp only at h
    cases hfold : parsed.foldlM (fun c p => addDeps names c p.1 p.2)
        (⟨List.replicate names.length [], List.replicate names.length [],
          List.replicate names.length 0⟩ : DepGraphCore) with
    | error e =>
      rw [hfold] at h
      cases h
    | ok core =>
      rw [hfold] at h
      dsimp only [Except.map] at h
      cases h
      rfl

theorem wf_get_skipped (g : DependencyGraph) (h : DGWf g) :
    g.get_skipped_subtasks =
      (List.range g.index_to_name.length).filterMap (fun i =>
        if ((g.graph.getD i []).any (fun j => !(g.dropped.getD j false))) then
          some ⟨g.index_to_name.getD i "",
            "Skipped for failing `" ++ joinComma (((g.graph.getD i []).filter
              (fun j => !(g.dropped.getD j false))).map (fun v => g.index_to_name.getD v "")) ++
              "`"⟩
        else none) := by
  unfold DependencyGraph.get_skipped_subtasks
  refine List.filterMap_congr ?_
  intro i _
  have hiff : g.outdeg.getD i 0 ≠ 0 ↔
      ((g.graph.getD i []).any (fun j => !(g.dropped.getD j false))) = true := by
    rw [h.outdeg_eq i, List.any_eq_true]
    unfold countNonDropped
    constructor
    · intro hne
      have hpos : 0 < (g.graph.getD i []).countP (fun j => !(g.dropped.getD j false)) := by
        by_contra hle
        have : (g.graph.getD i []).countP (fun j => !(g.dropped.getD j false)) = 0 := by omega
        rw [this] at hne
        exact hne (by norm_num)
      exact List.countP_pos_iff.mp hpos
    · intro hex
      have hpos := List.countP_pos_iff.mpr hex
      intro heq
      have : (g.graph.getD i []).countP (fun j => !(g.dropped.getD j false)) = 0 := by
        exact_mod_cast heq
      omega
  by_cases hc : g.outdeg.getD i 0 ≠ 0
  · rw [if_pos hc, if_pos (hiff.mp hc)]
  · rw [if_neg hc, if_neg (fun hh => hc (hiff.mpr hh))]

/-- C6 (amended): after any sequence of report operations on a graph built
by `DependencyGraph::new`, `get_skipped_subtasks` reports exactly the nodes
that still have an unsatisfied dependency — a dependency never reported
successful (never dropped) — each paired with a reason naming exactly those
unsatisfied dependencies.  (It does not report every never-dropped node: a
node that ran and was reported unsuccessful is never dropped but is not in
the skip report.) -/
theorem get_skipped_reports_unsatisfied_deps :
    ∀ (names : List String) (deps : Option (List (String × List String)))
      (g0 : DependencyGraph) (ops : List Bool),
      DependencyGraph.new names deps = .ok g0 →
      (runOps g0 ops).get_skipped_subtasks =
        (List.range names.length).filterMap (fun i =>
          if (((runOps g0 ops).graph.getD i []).any
              (fun j => !((runOps g0 ops).dropped.getD j false))) then
            some ⟨names.getD i "",
              "Skipped for failing `" ++
                joinComma ((((runOps g0 ops).graph.getD i []).filter
                  (fun j => !((runOps g0 ops).dropped.getD j false))).map
                    (fun v => names.getD v "")) ++ "`"⟩
          else none) := by
  intro names deps g0 ops hnew
  have hwf := runOps_wf ops g0 (new_wf names deps g0 hnew)
  have hnames : (runOps g0 ops).index_to_name = names := by
    rw [(runOps_static ops g0).1, new_names names deps g0 hnew]
  rw [wf_get_skipped _ hwf, hnames]

/-- C6 counterexample: one subtask `a`, no dependencies; it is issued and
reported unsuccessful.  It was never dropped (`dropped = [false]`), yet
`get_skipped_subtasks` reports nothing — refuting "reports every node that
was never dropped". -/
theorem get_skipped_misses_failed_node :
    (DependencyGraph.new ["a"] none).map
        (fun g0 => ((g0.report false).dropped, (g0.report false).get_skipped_subtasks)) =
      .ok ([false], []) := by rfl

/-- Witness for C6's amended theorem at a concrete graph: subtasks `a`, `b`
with `a` depending on `b`; `b` is issued and fails; `a` is reported skipped
for failing `b`. -/
theorem get_skipped_reports_unsatisfied_deps_witness :
    (runOps ⟨["a", "b"], [[1], []], [[], [0]], [1, 0], [1], [false, false]⟩
        [false]).get_skipped_subtasks =
      (List.range (["a", "b"] : List String).length).filterMap (fun i =>
        if (((runOps ⟨["a", "b"], [[1], []], [[], [0]], [1, 0], [1], [false, false]⟩
            [false]).graph.getD i []).any
            (fun j => !((runOps ⟨["a", "b"], [[1], []], [[], [0]], [1, 0], [1],
              [false, false]⟩ [false]).dropped.getD j false))) then
          some ⟨(["a", "b"] : List String).getD i "",
            "Skipped for failing `" ++
              joinComma ((((runOps ⟨["a", "b"], [[1], []], [[], [0]], [1, 0], [1],
                [false, false]⟩ [false]).graph.getD i []).filter
                (fun j => !((runOps ⟨["a", "b"], [[1], []], [[], [0]], [1, 0], [1],
                  [false, false]⟩ [false]).dropped.getD j false))).map
                  (fun v => (["a", "b"] : List String).getD v "")) ++ "`"⟩
        else none) :=
  get_skipped_reports_unsatisfied_deps ["a", "b"] (some [("a", ["b"])])
    ⟨["a", "b"], [[1], []], [[], [0]], [1, 0], [1], [false, false]⟩ [false] (by rfl)

/-! ## Testdata synchronizer (`src/task/local/util.rs`, `sync_problem_files`) -/

/-- One entry of the server file list (`ProblemFile` in `util.rs`);
`last_modified_time` is an `f64`, modelled as an exact rational. -/
structure ServerFile where
  name : String
  size : ℤ
  last_modified_time : ℚ
deriving Repr, DecidableEq

/-- The local problem directory: the regular data files present, and the
`<name>.lock` sidecars (keyed by base name) with their parsed content —
`none` when the content does not parse as a number.  Lock writes prepend;
lookups take the first (most recent) entry. -/
structure LocalDir where
  files : List String
  locks : List (String × Option ℚ)
deriving Repr, DecidableEq

/-- Read the sidecar of `name`: `none` = no lock file, `some none` =
unparsable content, `some (some v)` = parses as `v`. -/
def lockLookup (d : LocalDir) (name : String) : Option (Option ℚ) :=
  (d.locks.find? (fun p => p.1 == name)).map (fun p => p.2)

/-- The deletion pass (lines 173-211): remove every local regular file not
in the server list together with its sidecar.  Sidecar-only entries whose
data file does not exist are never visited and survive. -/
def syncDelete (d : LocalDir) (server : List ServerFile) : LocalDir :=
  let names := server.map (fun f => f.name)
  { files := d.files.filter (fun f => names.contains f)
    locks := d.locks.filter (fun p => names.contains p.1 || !(d.files.contains p.1)) }

/-- The download decision (lines 215-232): download unless the sidecar
exists, parses, and is at least the server timestamp. -/
def shouldDownload (d : LocalDir) (f : ServerFile) : Bool :=
  match lockLookup d f.name with
  | none => true
  | some none => true
  | some (some v) => v < f.last_modified_time

/-- A download (lines 233-270): write the data file and write the current
unix timestamp (whole seconds) to the sidecar. -/
def downloadFile (d : LocalDir) (f : ServerFile) (now : ℕ) : LocalDir :=
  { files := if d.files.contains f.name then d.files else f.name :: d.files
    locks := (f.name, some (now : ℚ)) :: d.locks }

/-- The per-file loop of the sync (lines 212-271); returns the final
directory and the names downloaded, in order. -/
def syncFiles : LocalDir → List ServerFile → ℕ → LocalDir × List String
  | d, [], _ => (d, [])
  | d, f :: rest, now =>
    if shouldDownload d f then
      let d2 := downloadFile d f now
      let r := syncFiles d2 rest now
      (r.1, f.name :: r.2)
    else syncFiles d rest now

/-- `sync_problem_files` body under the per-problem lock: delete stale
files, then walk the server list. -/
def sync_problem_files (d : LocalDir) (server : List ServerFile) (now : ℕ) :
    LocalDir × List String :=
  syncFiles (syncDelete d server) server now


theorem lockLookup_download (d : LocalDir) (f : ServerFile) (now : ℕ) (n : String) :
    lockLookup (downloadFile d f now) n =
      if f.name = n then some (some (now : ℚ)) else lockLookup d n := by
  unfold lockLookup downloadFile
  dsimp only
  by_cases h : f.name = n
  · rw [List.find?_cons_of_pos _ (by simpa using h), if_pos h]
    rfl
  · rw [List.find?_cons_of_neg _ (by simpa using h), if_neg h]

theorem downloadFile_files_mono (d : LocalDir) (f : ServerFile) (now : ℕ) (x : String)
    (h : x ∈ d.files) : x ∈ (downloadFile d f now).files := by
  unfold downloadFile
  dsimp only
  split
  · exact h
  · exact List.mem_cons_of_mem _ h

theorem downloadFile_has_file (d : LocalDir) (f : ServerFile) (now : ℕ) :
    f.name ∈ (downloadFile d f now).files := by
  unfold downloadFile
  dsimp only
  by_cases h : d.files.contains f.name
  · rw [if_pos h]
    exact List.mem_of_elem_eq_true h
  · rw [if_neg h]
    exact List.mem_cons_self _ _

theorem downloadFile_orphanfree (d : LocalDir) (f : ServerFile) (now : ℕ)
    (h : ∀ p ∈ d.locks, p.1 ∈ d.files) :
    ∀ p ∈ (downloadFile d f now).locks, p.1 ∈ (downloadFile d f now).files := by
  intro p hp
  rcases List.mem_cons.mp hp with hp | hp
  · rw [hp]
    exact downloadFile_has_file d f now
  · exact downloadFile_files_mono d f now _ (h p hp)

theorem syncFiles_files_mono (server : List ServerFile) :
    ∀ (d : LocalDir) (now : ℕ) (x : String), x ∈ d.files →
      x ∈ (syncFiles d server now).1.files := by
  induction server with
  | nil => intro d now x h; exact h
  | cons f rest ih =>
    intro d now x h
    unfold syncFiles
    by_cases hd : shouldDownload d f
    · rw [if_pos hd]
      exact ih _ now x (downloadFile_files_mono d f now x h)
    · rw [if_neg hd]
      exact ih _ now x h

theorem syncFiles_lock_final (server : List ServerFile) :
    ∀ (d : LocalDir) (now : ℕ) (n : String),
      lockLookup (syncFiles d server now).1 n = lockLookup d n ∨
        lockLookup (syncFiles d server now).1 n = some (some (now : ℚ)) := by
  induction server with
  | nil => intro d now n; exact Or.inl rfl
  | cons f rest ih =>
    intro d now n
    unfold syncFiles
    by_cases hd : shouldDownload d f
    · rw [if_pos hd]
      dsimp only
      rcases ih (downloadFile d f now) now n with h | h
      · rw [h, lockLookup_download]
        by_cases hn : f.name = n
        · rw [if_pos hn]
          exact Or.inr rfl
        · rw [if_neg hn]
          exact Or.inl rfl
      · exact Or.inr h
    · rw [if_neg hd]
      exact ih d now n

theorem syncFiles_orphanfree (server : List ServerFile) :
    ∀ (d : LocalDir) (now : ℕ), (∀ p ∈ d.locks, p.1 ∈ d.files) →
      ∀ p ∈ (syncFiles d server now).1.locks, p.1 ∈ (syncFiles d server now).1.files := by
  induction server with
  | nil => intro d now h; exact h
  | cons f rest ih =>
    intro d now h
    unfold syncFiles
    by_cases hd : shouldDownload d f
    · rw [if_pos hd]
      exact ih _ now (downloadFile_orphanfree d f now h)
    · rw [if_neg hd]
      exact ih d now h

theorem syncFiles_fresh (server : List ServerFile) :
    ∀ (d : LocalDir) (now : ℕ), (∀ p ∈ d.locks, p.1 ∈ d.files) →
      (∀ f ∈ server, f.last_modified_time ≤ (now : ℚ)) →
      ∀ f ∈ server, f.name ∈ (syncFiles d server now).1.files ∧
        ∃ v : ℚ, lockLookup (syncFiles d server now).1 f.name = some (some v) ∧
          f.last_modified_time ≤ v := by
  induction server with
  | nil => intro d now _ _ f hf; cases hf
  | cons f0 rest ih =>
    intro d now horphan hclock f hf
    unfold syncFiles
    by_cases hd : shouldDownload d f0
    · rw [if_pos hd]
      dsimp only
      rcases List.mem_cons.mp hf with hfe | hfr
      · constructor
        · exact syncFiles_files_mono rest _ now _
            (hfe ▸ downloadFile_has_file d f0 now)
        · rcases syncFiles_lock_final rest (downloadFile d f0 now) now f.name with h | h
          · rw [h, lockLookup_download, hfe, if_pos rfl]
            exact ⟨(now : ℚ), rfl, hfe ▸ hclock f hf⟩
          · rw [h]
            exact ⟨(now : ℚ), rfl, hclock f hf⟩
      · exact ih (downloadFile d f0 now) now
          (downloadFile_orphanfree d f0 now horphan)
          (fun q hq => hclock q (by simp [hq])) f hfr
    · rw [if_neg hd]
      rcases List.mem_cons.mp hf with hfe | hfr
      · unfold shouldDownload at hd
        cases hlk : lockLookup d f0.name with
        | none => rw [hlk] at hd; exact absurd rfl hd
        | some o =>
          cases o with
          | none => rw [hlk] at hd; exact absurd rfl hd
          | some v =>
            rw [hlk] at hd
            have hle : f0.last_modified_time ≤ v := by
              have : ¬(v < f0.last_modified_time) := by simpa using hd
              exact le_of_not_lt this
            have hmem : f0.name ∈ d.files := by
              unfold lockLookup at hlk
              cases hfind : d.locks.find? (fun p => p.1 == f0.name) with
              | none => rw [hfind] at hlk; cases hlk
              | some p =>
                have hpmem := List.mem_of_find?_eq_some hfind
                have hkey : p.1 = f0.name := by
                  have := List.find?_some hfind
                  simpa using this
                rw [← hkey]
                exact horphan p hpmem
            constructor
            · exact syncFiles_files_mono rest d now _ (hfe ▸ hmem)
            · rcases syncFiles_lock_final rest d now f.name with h | h
              · rw [h, hfe, hlk]
                exact ⟨v, rfl, hfe ▸ hle⟩
              · rw [h]
                exact ⟨(now : ℚ), rfl, hclock f hf⟩
      · exact ih d now horphan (fun q hq => hclock q (by simp [hq])) f hfr

theorem syncFiles_no_download (server : List ServerFile) :
    ∀ (d : LocalDir) (now : ℕ), (∀ f ∈ server, shouldDownload d f = false) →
      syncFiles d server now = (d, []) := by
  induction server with
  | nil => intro d now _; rfl
  | cons f rest ih =>
    intro d now h
    unfold syncFiles
    rw [if_neg (by rw [h f (by simp)]; exact fun hh => Bool.false_ne_true hh)]
    exact ih d now (fun q hq => h q (by simp [hq]))

theorem lockLookup_syncDelete (d : LocalDir) (server : List ServerFile) (n : String)
    (hn : ((server.map (fun f => f.name)).contains n) = true) :
    lockLookup (syncDelete d server) n = lockLookup d n := by
  unfold lockLookup syncDelete
  dsimp only
  congr 1
  induction d.locks with
  | nil => rfl
  | cons p rest ih =>
    by_cases hp : p.1 = n
    · have hcond : ((server.map (fun f => f.name)).contains p.1 ||
          !(d.files.contains p.1)) = true := by
        rw [hp, hn]
        rfl
      rw [List.filter_cons, if_pos hcond, List.find?_cons_of_pos _ (by simpa using hp),
        List.find?_cons_of_pos _ (by simpa using hp)]
    · by_cases hcond : ((server.map (fun f => f.name)).contains p.1 ||
          !(d.files.contains p.1)) = true
      · rw [List.filter_cons, if_pos hcond, List.find?_cons_of_neg _ (by simpa using hp),
          List.find?_cons_of_neg _ (by simpa using hp)]
        exact ih
      · rw [List.filter_cons, if_neg hcond, List.find?_cons_of_neg _ (by simpa using hp)]
        exact ih

theorem syncDelete_orphanfree (d : LocalDir) (server : List ServerFile)
    (h : ∀ p ∈ d.locks, p.1 ∈ d.files) :
    ∀ p ∈ (syncDelete d server).locks, p.1 ∈ (syncDelete d server).files := by
  intro p hp
  unfold syncDelete at hp ⊢
  dsimp only at hp ⊢
  have hpf := List.mem_filter.mp hp
  have hbase := h p hpf.1
  rw [List.mem_filter]
  refine ⟨hbase, ?_⟩
  rcases Bool.or_eq_true_iff.mp hpf.2 with hc | hc
  · exact hc
  · have : ¬(d.files.contains p.1 = true) := by simpa using hc
    exact absurd (List.elem_eq_true_of_mem hbase) this

/-- C5 (amended): provided every pre-existing `.lock` sidecar is accompanied
by its data file (no orphan sidecars) and the judger's clock, in whole
seconds, is at least every server file's `last_modified_time`, then after a
successful sync every file in the server list exists locally with a sidecar
whose recorded timestamp is ≥ that file's `last_modified_time`, and a
second sync against an unchanged server list downloads nothing.  (Without
the orphan hypothesis a stale sidecar makes the sync skip the download of a
file that does not exist locally.) -/
theorem sync_problem_files_invariants :
    ∀ (d : LocalDir) (server : List ServerFile) (now now2 : ℕ),
      (∀ p ∈ d.locks, p.1 ∈ d.files) →
      (∀ f ∈ server, f.last_modified_time ≤ (now : ℚ)) →
      (∀ f ∈ server, f.name ∈ (sync_problem_files d server now).1.files ∧
        ∃ v : ℚ, lockLookup (sync_problem_files d server now).1 f.name = some (some v) ∧
          f.last_modified_time ≤ v) ∧
      (sync_problem_files (sync_problem_files d server now).1 server now2).2 = [] := by
  intro d server now now2 horphan hclock
  have h1 := syncFiles_fresh server (syncDelete d server) now
    (syncDelete_orphanfree d server horphan) hclock
  refine ⟨h1, ?_⟩
  have hnd : ∀ f ∈ server,
      shouldDownload (syncDelete (sync_problem_files d server now).1 server) f = false := by
    intro f hf
    obtain ⟨hmem, v, hlk, hle⟩ := h1 f hf
    unfold shouldDownload
    have hcontains : ((server.map (fun q => q.name)).contains f.name) = true :=
      List.elem_eq_true_of_mem (List.mem_map_of_mem _ hf)
    rw [lockLookup_syncDelete _ server f.name hcontains]
    have hlk2 : lockLookup (sync_problem_files d server now).1 f.name = some (some v) := hlk
    rw [hlk2]
    exact decide_eq_false (not_lt.mpr hle)
  show (syncFiles (syncDelete (sync_problem_files d server now).1 server) server now2).2 = []
  rw [syncFiles_no_download server _ now2 hnd]

/-- C5 counterexample: the server list holds one file `a`
(`last_modified_time` 100); locally the data file is absent but a stale
sidecar `a.lock` with timestamp 200 survives.  The sync succeeds and
downloads nothing, so afterwards `a` still does not exist locally —
refuting the claimed invariant that every server-list file exists after a
successful sync. -/
theorem sync_problem_files_orphan_lock :
    sync_problem_files ⟨[], [("a", some 200)]⟩ [⟨"a", 1, 100⟩] 300 =
      (⟨[], [("a", some 200)]⟩, []) := by rfl

/-- Witness for C5's amended theorem at a concrete input. -/
theorem sync_problem_files_invariants_witness :
    (∀ f ∈ [(⟨"a", 1, 100⟩ : ServerFile)],
      f.name ∈ (sync_problem_files ⟨["a"], [("a", some 200)]⟩ [⟨"a", 1, 100⟩] 300).1.files ∧
      ∃ v : ℚ, lockLookup (sync_problem_files ⟨["a"], [("a", some 200)]⟩
          [⟨"a", 1, 100⟩] 300).1 f.name = some (some v) ∧
        f.last_modified_time ≤ v) ∧
    (sync_problem_files (sync_problem_files ⟨["a"], [("a", some 200)]⟩
        [⟨"a", 1, 100⟩] 300).1 [⟨"a", 1, 100⟩] 400).2 = [] :=
  sync_problem_files_invariants ⟨["a"], [("a", some 200)]⟩ [⟨"a", 1, 100⟩] 300 400
    (by decide) (by decide)

/-! ## Judge result mapping (`SubmissionJudgeResult = BTreeMap<String, _>`,
`src/task/local/model.rs` line 45) -/

/-- `SubmissionSubtaskResult`. -/
structure SubmissionSubtaskResult where
  score : ℤ
  status : String
  testcases : List SubmissionTestcaseResult
deriving Repr, DecidableEq

/-- `BTreeMap<String, SubmissionSubtaskResult>` as an association list kept
sorted by key in ascending lexicographic order; iteration and
serialization present entries in list order. -/
abbrev SubmissionJudgeResult := List (String × SubmissionSubtaskResult)

/-- Executable lexicographic comparison of `String` keys (`Ord` on Rust
`String`); agrees with the `<` order on `String`. -/
def strLtB (a b : String) : Bool := decide (a.toList < b.toList)

theorem strLtB_iff (a b : String) : strLtB a b = true ↔ a < b := by
  unfold strLtB
  rw [decide_eq_true_eq]
  exact String.lt_iff_toList_lt.symm

/-- `BTreeMap::insert`: place the entry at its ordered position, replacing
an existing entry with the same key. -/
def btreeInsert {β : Type} : List (String × β) → String → β → List (String × β)
  | [], k, v => [(k, v)]
  | (k0, v0) :: rest, k, v =>
    if strLtB k k0 then (k, v) :: (k0, v0) :: rest
    else if k == k0 then (k, v) :: rest
    else (k0, v0) :: btreeInsert rest k v

/-- `BTreeMap::get`. -/
def btreeGet {β : Type} (m : List (String × β)) (k : String) : Option β :=
  (m.find? (fun p => p.1 == k)).map (fun p => p.2)

/-- `BTreeMap::get_mut` followed by a mutation of the entry's value. -/
def btreeModify {β : Type} (m : List (String × β)) (k : String) (f : β → β) :
    List (String × β) :=
  m.map (fun p => if p.1 = k then (p.1, f p.2) else p)

theorem btreeGet_insert {β : Type} (m : List (String × β)) (k k2 : String) (v : β) :
    btreeGet (btreeInsert m k v) k2 = if k2 = k then some v else btreeGet m k2 := by
  induction m with
  | nil =>
    unfold btreeInsert btreeGet
    by_cases h : k2 = k
    · rw [List.find?_cons_of_pos _ (by simpa using h.symm), if_pos h]
      rfl
    · rw [List.find?_cons_of_neg _ (by simpa using fun hh => h hh.symm), if_neg h]
  | cons p rest ih =>
    obtain ⟨k0, v0⟩ := p
    unfold btreeInsert
    by_cases h1 : strLtB k k0 = true
    · rw [if_pos h1]
      unfold btreeGet
      by_cases h : k2 = k
      · rw [List.find?_cons_of_pos _ (by simpa using h.symm), if_pos h]
        rfl
      · rw [List.find?_cons_of_neg _ (by simpa using fun hh => h hh.symm), if_neg h]
    · rw [if_neg h1]
      by_cases h2 : k = k0
      · rw [if_pos ((beq_iff_eq).mpr h2)]
        unfold btreeGet
        by_cases h : k2 = k
        · rw [List.find?_cons_of_pos _ (by simpa using h.symm), if_pos h]
          rfl
        · rw [List.find?_cons_of_neg _ (by simpa using fun hh => h hh.symm), if_neg h,
            List.find?_cons_of_neg _ (by simpa using fun hh => h (hh.symm.trans h2.symm))]
      · rw [if_neg (fun hh => h2 ((beq_iff_eq).mp hh))]
        unfold btreeGet
        by_cases h : k2 = k0
        · have hne : ¬k2 = k := by
            intro hh
            exact h2 (hh ▸ h)
          rw [List.find?_cons_of_pos _ (by simpa using h.symm), if_neg hne,
            List.find?_cons_of_pos _ (by simpa using h.symm)]
        · rw [List.find?_cons_of_neg _ (by simpa using fun hh => h hh.symm),
            List.find?_cons_of_neg _ (by simpa using fun hh => h hh.symm)]
          exact ih

theorem btreeInsert_mem_keys {β : Type} (m : List (String × β)) (k x : String) (v : β) :
    x ∈ (btreeInsert m k v).map (fun p => p.1) ↔
      x = k ∨ x ∈ m.map (fun p => p.1) := by
  induction m with
  | nil => simp [btreeInsert]
  | cons p rest ih =>
    obtain ⟨k0, v0⟩ := p
    unfold btreeInsert
    by_cases h1 : strLtB k k0 = true
    · rw [if_pos h1]
      simp [or_assoc]
    · rw [if_neg h1]
      by_cases h2 : k = k0
      · rw [if_pos ((beq_iff_eq).mpr h2)]
        subst h2
        simp only [List.map_cons, List.mem_cons]
        constructor
        · rintro (h | h)
          · exact Or.inl h
          · exact Or.inr (Or.inr h)
        · rintro (h | h | h)
          · exact Or.inl h
          · exact Or.inl h
          · exact Or.inr h
      · rw [if_neg (fun hh => h2 ((beq_iff_eq).mp hh))]
        simp only [List.map_cons, List.mem_cons, ih]
        constructor
        · rintro (h | h | h)
          · exact Or.inr (Or.inl h)
          · exact Or.inl h
          · exact Or.inr (Or.inr h)
        · rintro (h | h | h)
          · exact Or.inr (Or.inl h)
          · exact Or.inl h
          · exact Or.inr (Or.inr h)

theorem btreeInsert_sorted {β : Type} (m : List (String × β)) (k : String) (v : β)
    (h : List.Pairwise (fun a b : String × β => a.1 < b.1) m) :
    List.Pairwise (fun a b : String × β => a.1 < b.1) (btreeInsert m k v) := by
  induction m with
  | nil => simp [btreeInsert]
  | cons p rest ih =>
    obtain ⟨k0, v0⟩ := p
    rw [List.pairwise_cons] at h
    unfold btreeInsert
    by_cases h1 : strLtB k k0 = true
    · rw [if_pos h1]
      have h1p : k < k0 := (strLtB_iff k k0).mp h1
      rw [List.pairwise_cons]
      refine ⟨?_, List.pairwise_cons.mpr h⟩
      intro b hb
      rcases List.mem_cons.mp hb with hb | hb
      · rw [hb]
        exact h1p
      · exact lt_trans h1p (h.1 b hb)
    · rw [if_neg h1]
      by_cases h2 : k = k0
      · rw [if_pos ((beq_iff_eq).mpr h2)]
        rw [List.pairwise_cons]
        refine ⟨?_, h.2⟩
        intro b hb
        rw [h2]
        exact h.1 b hb
      · rw [if_neg (fun hh => h2 ((beq_iff_eq).mp hh))]
        have h1p : ¬k < k0 := fun hh => h1 ((strLtB_iff k k0).mpr hh)
        have hgt : k0 < k := lt_of_le_of_ne (le_of_not_lt h1p) (fun hh => h2 hh.symm)
        rw [List.pairwise_cons]
        refine ⟨?_, ih h.2⟩
        intro b hb
        have hbk := List.mem_map_of_mem (fun p : String × β => p.1) hb
        rcases (btreeInsert_mem_keys rest k b.1 v).mp hbk with hbe | hbe
        · rw [hbe]
          exact hgt
        · obtain ⟨q, hq, hqe⟩ := List.mem_map.mp hbe
          rw [← hqe]
          exact h.1 q hq

/-- C7 (amended): the judge result mapping is a `BTreeMap`, so iteration
and serialization present the subtasks in ascending lexicographic order of
subtask name, whatever the insertion order; the key set is the set of
inserted names together with the template's keys.  Insertion order is not
observable. -/
theorem judge_result_iteration_sorted :
    ∀ (inserts : List (String × SubmissionSubtaskResult)) (m0 : SubmissionJudgeResult),
      List.Pairwise (fun a b : String × SubmissionSubtaskResult => a.1 < b.1) m0 →
      List.Pairwise (fun a b : String × SubmissionSubtaskResult => a.1 < b.1)
        (inserts.foldl (fun m p => btreeInsert m p.1 p.2) m0) ∧
      (∀ x, x ∈ ((inserts.foldl (fun m p => btreeInsert m p.1 p.2) m0).map (fun p => p.1)) ↔
        x ∈ inserts.map (fun p => p.1) ∨ x ∈ m0.map (fun p => p.1)) := by
  intro inserts
  induction inserts with
  | nil =>
    intro m0 h
    exact ⟨h, by simp⟩
  | cons q rest ih =>
    intro m0 h
    rw [List.foldl_cons]
    have h1 := ih (btreeInsert m0 q.1 q.2) (btreeInsert_sorted m0 q.1 q.2 h)
    refine ⟨h1.1, ?_⟩
    intro x
    rw [h1.2 x, btreeInsert_mem_keys]
    simp only [List.map_cons, List.mem_cons]
    constructor
    · rintro (h | h | h)
      · exact Or.inl (Or.inr h)
      · exact Or.inl (Or.inl h)
      · exact Or.inr h
    · rintro ((h | h) | h)
      · exact Or.inr (Or.inl h)
      · exact Or.inl h
      · exact Or.inr (Or.inr h)

/-- C7 counterexample: inserting subtask `b` and then subtask `a` into an
empty judge result yields iteration order `["a", "b"]`, not the insertion
order `["b", "a"]` — insertion order is not observable. -/
theorem judge_result_not_insertion_order :
    ((btreeInsert (btreeInsert ([] : SubmissionJudgeResult) "b" ⟨0, "waiting", []⟩)
        "a" ⟨0, "waiting", []⟩).map (fun p => p.1) = ["a", "b"]) ∧
      (["a", "b"] : List String) ≠ ["b", "a"] := by
  constructor
  · decide
  · decide

/-- Witness for C7's amended theorem at a concrete insertion sequence. -/
theorem judge_result_iteration_sorted_witness :
    List.Pairwise (fun a b : String × SubmissionSubtaskResult => a.1 < b.1)
      (([("b", (⟨0, "waiting", []⟩ : SubmissionSubtaskResult)),
          ("a", ⟨0, "waiting", []⟩)] : List (String × SubmissionSubtaskResult)).foldl
        (fun m p => btreeInsert m p.1 p.2) []) ∧
    (∀ x, x ∈ ((([("b", (⟨0, "waiting", []⟩ : SubmissionSubtaskResult)),
          ("a", ⟨0, "waiting", []⟩)] : List (String × SubmissionSubtaskResult)).foldl
        (fun m p => btreeInsert m p.1 p.2) []).map (fun p => p.1)) ↔
      x ∈ ([("b", (⟨0, "waiting", []⟩ : SubmissionSubtaskResult)),
          ("a", ⟨0, "waiting", []⟩)] : List (String × SubmissionSubtaskResult)).map
        (fun p => p.1) ∨ x ∈ (([] : SubmissionJudgeResult)).map (fun p => p.1)) :=
  judge_result_iteration_sorted
    [("b", ⟨0, "waiting", []⟩), ("a", ⟨0, "waiting", []⟩)] [] (by simp)

/-! ## Local judge orchestrator (`src/task/local/executor.rs`, `handle`)

The model covers the result-tree manipulation of `handle`: the freshly
initialised tree (lines 223-246), the scheduling loop (lines 284-363), the
aggregation (lines 341-362), the skip finalisation (lines 364-392) and the
published snapshots.  External effects (HTTP, file system, containers) are
supplied through `JudgeEnv`/`TcEnv` oracles; the compile phase is
represented by its sandbox `ExecuteResult`; status-update *messages* and
the pre-initialisation publications (which all carry the incoming
`judge_result` template) are modelled by the template snapshots. -/

/-- Bundled environment of one submission run. -/
structure JudgeEnv where
  image : String
  comparator : Bytes → Bytes → Bytes → ℤ → Except String CompareResult
  tcEnv : String → ℕ → TcEnv
  answerFiles : List (String × Bytes)

/-- Placeholder testcase result (indexing a testcase that is absent is a
panic in the source; the model's `getD`/`set` pair makes it a no-op, and
every reachable access is in range). -/
def defaultTc : SubmissionTestcaseResult := ⟨0, "", 0, "", "", 0, "", 0⟩

/-- A fresh `waiting` testcase entry (lines 232-241). -/
def freshTestcaseResult (q : ProblemTestcase) : SubmissionTestcaseResult :=
  ⟨q.full_score, q.input, 0, "", q.output, 0, "waiting", 0⟩

/-- A fresh `waiting` subtask entry (lines 226-243). -/
def freshSubtaskResult (v : ProblemSubtask) : SubmissionSubtaskResult :=
  ⟨0, "waiting", v.testcases.map freshTestcaseResult⟩

/-- INIT_RESULT_TREE (lines 221-245): start from the submission's incoming
`judge_result` and insert a fresh entry for every subtask. -/
def initJudgeResult (template : SubmissionJudgeResult) (subtasks : List ProblemSubtask) :
    SubmissionJudgeResult :=
  subtasks.foldl (fun jr v => btreeInsert jr v.name (freshSubtaskResult v)) template

/-- `judge_result.get_mut(&name).unwrap().testcases[i] = ...`. -/
def modifyTc (jr : SubmissionJudgeResult) (name : String) (i : ℕ)
    (f : SubmissionTestcaseResult → SubmissionTestcaseResult) : SubmissionJudgeResult :=
  btreeModify jr name (fun sr =>
    { sr with testcases := sr.testcases.set i (f (sr.testcases.getD i defaultTc)) })

/-- The per-testcase loop of one subtask (lines 292-340): set `judging`,
publish, then skip / submit-answer / traditional.  Returns the final tree,
the `will_skip` flag and the published snapshots. -/
def runTestcases (J : JudgeEnv) (cfg : ExtraJudgeConfig) (time_scale : ℚ)
    (subtask : ProblemSubtask) :
    List (ℕ × ProblemTestcase) → SubmissionJudgeResult → Bool →
      Except String (SubmissionJudgeResult × Bool × List SubmissionJudgeResult)
  | [], jr, ws => .ok (jr, ws, [])
  | (i, q) :: rest, jr, ws =>
    let jr1 := modifyTc jr subtask.name i (fun tc => { tc with status := "judging" })
    if ws then
      let jr2 := modifyTc jr1 subtask.name i
        (fun tc => { tc with score := 0, status := "skipped", message := "跳过" })
      (runTestcases J cfg time_scale subtask rest jr2 ws).map
        (fun r => (r.1, r.2.1, jr1 :: r.2.2))
    else
      match btreeGet jr1 subtask.name with
      | none => .error ("Failed to get subtask `" ++ subtask.name ++ "` by name!")
      | some sr =>
        let tc0 := sr.testcases.getD i defaultTc
        if cfg.submit_answer then
          match handle_submit_answer tc0 q (J.tcEnv subtask.name i).inputRead
              (J.tcEnv subtask.name i).answerRead J.answerFiles J.comparator with
          | .error e => .error e
          | .ok tc2 =>
            let jr2 := modifyTc jr1 subtask.name i (fun _ => tc2)
            (runTestcases J cfg time_scale subtask rest jr2 ws).map
              (fun r => (r.1, r.2.1, jr1 :: r.2.2))
        else
          match handle_traditional q subtask time_scale J.image J.comparator cfg
              (J.tcEnv subtask.name i) tc0 with
          | .error e => .error e
          | .ok tcws =>
            let jr2 := modifyTc jr1 subtask.name i (fun _ => tcws.1)
            (runTestcases J cfg time_scale subtask rest jr2 tcws.2).map
              (fun r => (r.1, r.2.1, jr1 :: r.2.2))

/-- Subtask aggregation (lines 341-362): `min` gives all-or-nothing, `sum`
adds testcase scores; status `accepted` iff the subtask's full score was
reached, which is also reported to the dependency graph. -/
def aggregateSubtask (subtask : ProblemSubtask) (jr : SubmissionJudgeResult) :
    Except String (SubmissionJudgeResult × Bool) :=
  match btreeGet jr subtask.name with
  | none => .error ("Failed to get subtask `" ++ subtask.name ++ "` by name!")
  | some sr =>
    let score : ℤ :=
      if subtask.method = "min" then
        (if sr.testcases.all (fun v => v.status == "accepted") then subtask.score else 0)
      else if subtask.method = "sum" then (sr.testcases.map (fun v => v.score)).sum
      else sr.score
    let jr2 := btreeModify jr subtask.name (fun sr2 =>
      { sr2 with score := score,
                 status := if score = subtask.score then "accepted" else "unaccepted" })
    .ok (jr2, decide (score = subtask.score))

/-- One iteration of the scheduling loop for a single subtask. -/
def processSubtask (J : JudgeEnv) (cfg : ExtraJudgeConfig) (time_scale : ℚ)
    (subtask : ProblemSubtask) (jr0 : SubmissionJudgeResult) :
    Except String (SubmissionJudgeResult × Bool × List SubmissionJudgeResult) :=
  match runTestcases J cfg time_scale subtask subtask.testcases.enum jr0 false with
  | .error e => .error e
  | .ok r =>
    match aggregateSubtask subtask r.1 with
    | .error e => .error e
    | .ok a => .ok (a.1, a.2, r.2.2)

/-- SCHEDULE_LOOP (lines 284-363), fuel-indexed: while the graph issues a
subtask, judge it and report the outcome.  (Each iteration pops one heap
entry, so `fuel ≥` the subtask count exhausts the loop; the completeness
claim below holds for every fuel.) -/
def scheduleLoop (J : JudgeEnv) (cfg : ExtraJudgeConfig) (time_scale : ℚ)
    (problem : ProblemInfo) :
    ℕ → DependencyGraph → SubmissionJudgeResult →
      Except String (SubmissionJudgeResult × DependencyGraph × List SubmissionJudgeResult)
  | 0, g, jr => .ok (jr, g, [])
  | fuel + 1, g, jr =>
    match g.next with
    | none => .ok (jr, g, [])
    | some name =>
      match problem.subtasks.reverse.find? (fun v => v.name == name) with
      | none => .error ("Failed to get subtask `" ++ name ++ "` by name!")
      | some subtask =>
        match processSubtask J cfg time_scale subtask jr with
        | .error e => .error e
        | .ok r =>
          (scheduleLoop J cfg time_scale problem fuel (g.report r.2.1) r.1).map
            (fun r2 => (r2.1, r2.2.1, r.2.2 ++ r2.2.2))

/-- FINALIZE (lines 373-392): mark every graph-reported skipped subtask and
its testcases `skipped` with the graph's reason. -/
def finalizeSkipped : List SkippedSubtask → SubmissionJudgeResult →
    Except String SubmissionJudgeResult
  | [], jr => .ok jr
  | s :: rest, jr =>
    if (btreeGet jr s.name).isSome then
      finalizeSkipped rest (btreeModify jr s.name (fun sr =>
        { sr with status := "skipped",
                  testcases := sr.testcases.map (fun tc =>
                    { tc with status := "skipped", message := s.reason }) }))
    else .error ("Unexpected missing subtask: " ++ s.name)

/-- The termination-relevant skeleton of `handle`: the publications of the
compile phase (the incoming template, then — on compile failure — an empty
`SubmissionJudgeResult::default()`), the fresh tree, the loop snapshots and
the final tree. -/
def handleLocal (problem : ProblemInfo) (template : SubmissionJudgeResult)
    (cfg : ExtraJudgeConfig) (J : JudgeEnv) (compileRes : ExecuteResult)
    (deps : Option (List (String × List String))) (fuel : ℕ) :
    Except String (List SubmissionJudgeResult) :=
  let pubs0 : List SubmissionJudgeResult :=
    [template] ++ (if cfg.submit_answer then [] else [template])
  if ¬cfg.submit_answer ∧ compileRes.exit_code ≠ 0 then
    .ok (pubs0 ++ [[]])
  else
    let pubs1 := pubs0 ++ (if cfg.submit_answer then [] else [template])
    let jr0 := initJudgeResult template problem.subtasks
    let ts := timeScaleOf cfg.time_scale
    match DependencyGraph.new (problem.subtasks.map (fun v => v.name)) deps with
    | .error e => .error e
    | .ok g0 =>
      match scheduleLoop J cfg ts problem fuel g0 jr0 with
      | .error e => .error e
      | .ok r =>
        match finalizeSkipped r.2.1.get_skipped_subtasks r.1 with
        | .error e => .error e
        | .ok jr2 => .ok (pubs1 ++ jr0 :: r.2.2 ++ [jr2])

/-- The per-key testcase-count profile of a judge result; the completeness
claim is about this profile of the last published snapshot. -/
def tcShape (jr : SubmissionJudgeResult) (k : String) : Option ℕ :=
  (btreeGet jr k).map (fun sr => sr.testcases.length)

theorem btreeGet_modify {β : Type} (m : List (String × β)) (k k2 : String) (f : β → β) :
    btreeGet (btreeModify m k f) k2 =
      (btreeGet m k2).map (fun v => if k2 = k then f v else v) := by
  induction m with
  | nil => rfl
  | cons p rest ih =>
    have hkey : (if p.1 = k then (p.1, f p.2) else p).1 = p.1 := by
      split <;> rfl
    unfold btreeModify btreeGet
    rw [List.map_cons]
    by_cases hp : p.1 = k2
    · rw [List.find?_cons_of_pos _ (by rw [hkey]; simpa using hp),
        List.find?_cons_of_pos _ (by simpa using hp)]
      simp only [Option.map_some']
      rw [hp]
      by_cases hk : k2 = k
      · rw [if_pos hk, if_pos hk]
      · rw [if_neg hk, if_neg hk]
    · rw [List.find?_cons_of_neg _ (by rw [hkey]; simpa using hp),
        List.find?_cons_of_neg _ (by simpa using hp)]
      unfold btreeModify btreeGet at ih
      exact ih

theorem tcShape_modify (jr : SubmissionJudgeResult) (k k2 : String)
    (f : SubmissionSubtaskResult → SubmissionSubtaskResult)
    (hf : ∀ sr, ((f sr).testcases).length = sr.testcases.length) :
    tcShape (btreeModify jr k f) k2 = tcShape jr k2 := by
  unfold tcShape
  rw [btreeGet_modify]
  cases btreeGet jr k2 with
  | none => rfl
  | some sr =>
    simp only [Option.map_some']
    by_cases h : k2 = k
    · rw [if_pos h, hf sr]
    · rw [if_neg h]

theorem tcShape_modifyTc (jr : SubmissionJudgeResult) (name : String) (i : ℕ)
    (f : SubmissionTestcaseResult → SubmissionTestcaseResult) (k : String) :
    tcShape (modifyTc jr name i f) k = tcShape jr k := by
  unfold modifyTc
  exact tcShape_modify jr name k _ (fun sr => by simp)

theorem tcShape_isSome (jr : SubmissionJudgeResult) (k : String) :
    (btreeGet jr k).isSome = (tcShape jr k).isSome := by
  unfold tcShape
  cases btreeGet jr k <;> rfl

theorem except_map_ok {α β γ : Type} (f : β → γ) (x : Except α β) (r : γ)
    (h : x.map f = .ok r) : ∃ r0, x = .ok r0 ∧ r = f r0 := by
  cases x with
  | error e => simp [Except.map] at h
  | ok v =>
    refine ⟨v, rfl, ?_⟩
    simp only [Except.map] at h
    cases h
    rfl

theorem runTestcases_shape (J : JudgeEnv) (cfg : ExtraJudgeConfig) (ts : ℚ)
    (st : ProblemSubtask) :
    ∀ (l : List (ℕ × ProblemTestcase)) (jr : SubmissionJudgeResult) (ws : Bool)
      (r : SubmissionJudgeResult × Bool × List SubmissionJudgeResult),
      runTestcases J cfg ts st l jr ws = .ok r →
      ∀ k, tcShape r.1 k = tcShape jr k := by
  intro l
  induction l with
  | nil =>
    intro jr ws r h k
    unfold runTestcases at h
    cases h
    rfl
  | cons p rest ih =>
    intro jr ws r h k
    obtain ⟨i, q⟩ := p
    unfold runTestcases at h
    repeat'
      first
        | (obtain ⟨r0, hrec, hr⟩ := except_map_ok _ _ _ h
           rw [hr, ih _ _ _ hrec k, tcShape_modifyTc, tcShape_modifyTc])
        | injection h
        | split at h
        | dsimp only at h

theorem aggregateSubtask_shape (st : ProblemSubtask) (jr : SubmissionJudgeResult)
    (a : SubmissionJudgeResult × Bool) (h : aggregateSubtask st jr = .ok a)
    (k : String) : tcShape a.1 k = tcShape jr k := by
  unfold aggregateSubtask at h
  split at h
  · injection h
  · injection h with hh
    rw [← hh]
    dsimp only
    refine tcShape_modify jr st.name k _ ?_
    intro sr
    rfl

theorem processSubtask_shape (J : JudgeEnv) (cfg : ExtraJudgeConfig) (ts : ℚ)
    (st : ProblemSubtask) (jr : SubmissionJudgeResult)
    (r : SubmissionJudgeResult × Bool × List SubmissionJudgeResult)
    (h : processSubtask J cfg ts st jr = .ok r) (k : String) :
    tcShape r.1 k = tcShape jr k := by
  unfold processSubtask at h
  split at h
  · injection h
  · rename_i r0 hrun
    split at h
    · injection h
    · rename_i a hagg
      cases h
      exact (aggregateSubtask_shape st r0.1 a hagg k).trans
        (runTestcases_shape J cfg ts st _ jr false r0 hrun k)

theorem finalizeSkipped_shape :
    ∀ (l : List SkippedSubtask) (jr jr2 : SubmissionJudgeResult),
      finalizeSkipped l jr = .ok jr2 → ∀ k, tcShape jr2 k = tcShape jr k := by
  intro l
  induction l with
  | nil =>
    intro jr jr2 h k
    cases h
    rfl
  | cons s rest ih =>
    intro jr jr2 h k
    unfold finalizeSkipped at h
    split at h
    · rw [ih _ _ h k, tcShape_modify]
      intro sr
      simp
    · injection h

theorem scheduleLoop_shape (J : JudgeEnv) (cfg : ExtraJudgeConfig) (ts : ℚ)
    (problem : ProblemInfo) :
    ∀ (fuel : ℕ) (g : DependencyGraph) (jr : SubmissionJudgeResult)
      (r : SubmissionJudgeResult × DependencyGraph × List SubmissionJudgeResult),
      scheduleLoop J cfg ts problem fuel g jr = .ok r →
      ∀ k, tcShape r.1 k = tcShape jr k := by
  intro fuel
  induction fuel with
  | zero =>
    intro g jr r h k
    cases h
    rfl
  | succ n ih =>
    intro g jr r h k
    unfold scheduleLoop at h
    split at h
    · cases h
      rfl
    · rename_i name hname
      split at h
      · injection h
      · rename_i subtask hfind
        split at h
        · injection h
        · rename_i r0 hps
          obtain ⟨r2, hrec, hr⟩ := except_map_ok _ _ _ h
          rw [hr]
          rw [ih _ _ _ hrec k]
          exact processSubtask_shape J cfg ts subtask jr r0 hps k

theorem btreeGet_initFold (l : List ProblemSubtask) :
    ∀ (m : SubmissionJudgeResult) (k : String), (∀ st ∈ l, st.name ≠ k) →
      btreeGet (initJudgeResult m l) k = btreeGet m k := by
  induction l with
  | nil =>
    intro m _ _
    rfl
  | cons v rest ih =>
    intro m k hne
    unfold initJudgeResult
    rw [List.foldl_cons]
    have h1 := ih (btreeInsert m v.name (freshSubtaskResult v)) k
      (fun st hst => hne st (List.mem_cons_of_mem v hst))
    unfold initJudgeResult at h1
    rw [h1, btreeGet_insert, if_neg]
    exact fun hh => hne v (List.mem_cons_self v rest) hh.symm

theorem initJudgeResult_get_mem :
    ∀ (l : List ProblemSubtask) (m : SubmissionJudgeResult),
      (l.map (fun v => v.name)).Nodup →
      ∀ st ∈ l, btreeGet (initJudgeResult m l) st.name = some (freshSubtaskResult st) := by
  intro l
  induction l with
  | nil =>
    intro m _ st hst
    cases hst
  | cons v rest ih =>
    intro m hnd st hst
    rw [List.map_cons, List.nodup_cons] at hnd
    rcases List.mem_cons.mp hst with hh | hh
    · subst hh
      unfold initJudgeResult
      rw [List.foldl_cons]
      have h1 := btreeGet_initFold rest (btreeInsert m st.name (freshSubtaskResult st))
        st.name (fun st2 hst2 heq => hnd.1 (List.mem_map.mpr ⟨st2, hst2, heq⟩))
      unfold initJudgeResult at h1
      rw [h1, btreeGet_insert, if_pos rfl]
    · have h1 := ih (btreeInsert m v.name (freshSubtaskResult v)) hnd.2 st hh
      unfold initJudgeResult at h1 ⊢
      rw [List.foldl_cons]
      exact h1

theorem initJudgeResult_isSome (l : List ProblemSubtask) :
    ∀ (m : SubmissionJudgeResult) (k : String),
      (btreeGet (initJudgeResult m l) k).isSome = true ↔
        (btreeGet m k).isSome = true ∨ k ∈ l.map (fun v => v.name) := by
  induction l with
  | nil =>
    intro m k
    simp [initJudgeResult]
  | cons v rest ih =>
    intro m k
    have h1 := ih (btreeInsert m v.name (freshSubtaskResult v)) k
    unfold initJudgeResult at h1 ⊢
    rw [List.foldl_cons, List.map_cons, h1, btreeGet_insert]
    by_cases hk : k = v.name
    · simp [hk]
    · rw [if_neg hk]
      simp [List.mem_cons, hk]

theorem getLast?_append_concat {α : Type} (l1 l2 : List α) (x a : α) :
    (l1 ++ x :: l2 ++ [a]).getLast? = some a := by
  have hre : l1 ++ x :: l2 ++ [a] = (l1 ++ x :: l2) ++ [a] := by
    simp [List.append_assoc]
  rw [hre, List.getLast?_concat]

/-- C2 (amended): on the normal termination path of the local judge
orchestrator (no compile-error exit) the last published judge result holds,
for every subtask of the problem, an entry under that subtask's name with
exactly that subtask's number of testcases, and its key set is exactly the
problem's subtask names together with any keys already present in the
submission's incoming `judge_result` template; the compile-error
termination path instead publishes `SubmissionJudgeResult::default()` — an
empty map containing no subtask entries — as its final snapshot. -/
theorem result_tree_completeness (problem : ProblemInfo)
    (template : SubmissionJudgeResult) (cfg : ExtraJudgeConfig) (J : JudgeEnv)
    (compileRes : ExecuteResult) (deps : Option (List (String × List String)))
    (fuel : ℕ) (pubs : List SubmissionJudgeResult)
    (hnd : (problem.subtasks.map (fun v => v.name)).Nodup)
    (h : handleLocal problem template cfg J compileRes deps fuel = .ok pubs) :
    (¬cfg.submit_answer ∧ compileRes.exit_code ≠ 0 → pubs.getLast? = some []) ∧
      (¬(¬cfg.submit_answer ∧ compileRes.exit_code ≠ 0) →
        ∃ jrLast, pubs.getLast? = some jrLast ∧
          (∀ st ∈ problem.subtasks, ∃ sr, btreeGet jrLast st.name = some sr ∧
            sr.testcases.length = st.testcases.length) ∧
          (∀ k, (btreeGet jrLast k).isSome = true ↔
            (btreeGet template k).isSome = true ∨
              k ∈ problem.subtasks.map (fun v => v.name))) := by
  unfold handleLocal at h
  dsimp only at h
  by_cases hc : ¬cfg.submit_answer = true ∧ compileRes.exit_code ≠ 0
  · rw [if_pos hc] at h
    injection h with hh
    subst hh
    constructor
    · intro _
      exact List.getLast?_concat _
    · intro hnc
      exact absurd hc hnc
  · rw [if_neg hc] at h
    cases hg : DependencyGraph.new (problem.subtasks.map (fun v => v.name)) deps with
    | error e =>
      rw [hg] at h
      injection h
    | ok g0 =>
      rw [hg] at h
      dsimp only at h
      cases hloop : scheduleLoop J cfg (timeScaleOf cfg.time_scale) problem fuel g0
          (initJudgeResult template problem.subtasks) with
      | error e =>
        rw [hloop] at h
        injection h
      | ok r =>
        rw [hloop] at h
        dsimp only at h
        cases hfin : finalizeSkipped r.2.1.get_skipped_subtasks r.1 with
        | error e =>
          rw [hfin] at h
          injection h
        | ok jr2 =>
          rw [hfin] at h
          injection h with hh
          subst hh
          have hshape : ∀ k2, tcShape jr2 k2 =
              tcShape (initJudgeResult template problem.subtasks) k2 :=
            fun k2 => (finalizeSkipped_shape _ _ _ hfin k2).trans
              (scheduleLoop_shape J cfg (timeScaleOf cfg.time_scale) problem fuel g0
                _ r hloop k2)
          constructor
          · intro hcond
            exact absurd hcond hc
          · intro _
            refine ⟨jr2, getLast?_append_concat _ _ _ _, ?_, ?_⟩
            · intro st hst
              have hg2 := initJudgeResult_get_mem problem.subtasks template hnd st hst
              have h2 := hshape st.name
              unfold tcShape at h2
              rw [hg2] at h2
              cases hb : btreeGet jr2 st.name with
              | none =>
                rw [hb] at h2
                simp at h2
              | some sr =>
                rw [hb] at h2
                simp only [Option.map_some'] at h2
                injection h2 with h3
                refine ⟨sr, rfl, ?_⟩
                rw [h3]
                unfold freshSubtaskResult
                simp
            · intro k
              have h2 := hshape k
              have h3 : (btreeGet jr2 k).isSome =
                  (btreeGet (initJudgeResult template problem.subtasks) k).isSome := by
                rw [tcShape_isSome, tcShape_isSome, h2]
              rw [h3]
              exact initJudgeResult_isSome problem.subtasks template k

/-- A one-subtask problem used to evaluate the orchestrator concretely. -/
def problemC2 : ProblemInfo :=
  ⟨1, "in", "out", "", 0, [⟨1000, 256, "min", "sub1", 100, [⟨100, "1.in", "1.out"⟩]⟩]⟩

/-- A traditional-mode extra config. -/
def cfgC2 : ExtraJudgeConfig := ⟨1000, 100, 1000, "", false, 1000, false, none, none⟩

/-- A judge environment (unused on the compile-error path). -/
def envC2 : JudgeEnv :=
  ⟨"img", fun _ _ _ _ => .error "", fun _ _ =>
    ⟨true, fun _ => .error "", .openErr, .error "", .error ""⟩, []⟩

/-- A failed compile run (exit code 1). -/
def compileErrC2 : ExecuteResult := ⟨1, 0, 0, "", false⟩

/-- C2 counterexample: on a compile-error termination the orchestrator's
last published snapshot is `SubmissionJudgeResult::default()` — the empty
map — which does not contain the problem's subtask name `sub1`, so the
published result tree is not complete on this termination path. -/
theorem compile_error_result_tree_incomplete :
    handleLocal problemC2 [] cfgC2 envC2 compileErrC2 none 3 = .ok [[], [], []] ∧
      ([[], [], []] : List SubmissionJudgeResult).getLast? = some [] ∧
      btreeGet ([] : SubmissionJudgeResult) "sub1" = none ∧
      "sub1" ∈ problemC2.subtasks.map (fun v => v.name) := by
  refine ⟨rfl, rfl, rfl, ?_⟩
  simp [problemC2]

/-- Witness for C2's theorem at a concrete run. -/
theorem result_tree_completeness_witness :
    ((problemC2.subtasks.map (fun v => v.name)).Nodup ∧
      handleLocal problemC2 [] cfgC2 envC2 compileErrC2 none 3 = .ok [[], [], []]) ∧
      ((¬cfgC2.submit_answer ∧ compileErrC2.exit_code ≠ 0 →
          ([[], [], []] : List SubmissionJudgeResult).getLast? = some []) ∧
        (¬(¬cfgC2.submit_answer ∧ compileErrC2.exit_code ≠ 0) →
          ∃ jrLast, ([[], [], []] : List SubmissionJudgeResult).getLast? = some jrLast ∧
            (∀ st ∈ problemC2.subtasks, ∃ sr, btreeGet jrLast st.name = some sr ∧
              sr.testcases.length = st.testcases.length) ∧
            (∀ k, (btreeGet jrLast k).isSome = true ↔
              (btreeGet ([] : SubmissionJudgeResult) k).isSome = true ∨
                k ∈ problemC2.subtasks.map (fun v => v.name)))) :=
  ⟨⟨by decide, by rfl⟩,
    result_tree_completeness problemC2 [] cfgC2 envC2 compileErrC2 none 3 [[], [], []]
      (by decide) (by rfl)⟩
